import Mathlib

/-!
# Verification of the PIXM8 voice-assistant backend

Shallow embedding of the parts of the Python backend
(`resources/python-backend/`) needed to settle the frozen claims:
the spoken-text sanitizer (`services/text.py`), voice resolution
(`services/voice_refs.py`, `server.py`), the session persistence mixin
(`db/sessions.py`), the audio segmenter and desktop message loop of the
unified websocket handler (`server.py`), the turn pipeline
(`process_transcription_and_respond`) and the synthesis streaming loop
(`services/pipeline.py`).

Strings are modelled as `List Char`; Python truthiness, `str.strip`,
`str.replace`, `str.lower`, `str.split` and the two regex substitutions
used by the sanitizer are transliterated at the ASCII level.  External
collaborators (the inference engines, `json.loads`, the Opus codec, the
loudness booster, the VAD classifier) are passed in as parameters, as the
spec treats them as capability interfaces.  The left-to-right scanners
are written with an explicit fuel argument (initialised with the input
length) so that they are structurally recursive and compute by `decide` /
`rfl`; fuel-irrelevance lemmas recover the natural recursion equations.
-/

namespace PIXM8

/-- Python whitespace class `\s` / `str.strip`, ASCII part:
space, tab, newline, carriage return, vertical tab, form feed. -/
def isWs (c : Char) : Bool :=
  c = ' ' || c = '\t' || c = '\n' || c = '\r' || c = Char.ofNat 11 || c = Char.ofNat 12

/-- Python `str.lower`, ASCII part. -/
def lowerChar (c : Char) : Char :=
  if 'A' ≤ c ∧ c ≤ 'Z' then Char.ofNat (c.toNat + 32) else c

/-- Python `str.strip()` (leading part): drop leading whitespace. -/
def dropLeadWs (t : List Char) : List Char := t.dropWhile isWs

/-- Python `str.strip()` (trailing part): drop trailing whitespace. -/
def dropTrailWs (t : List Char) : List Char := (t.reverse.dropWhile isWs).reverse

/-- Python `str.strip()`. -/
def stripWs (t : List Char) : List Char := dropTrailWs (dropLeadWs t)

/-- Fueled core of `replAll`. -/
def replAllF (p0 : Char) (ps : List Char) : Nat → List Char → List Char
  | 0, l => l
  | _ + 1, [] => []
  | fuel + 1, c :: cs =>
    if (p0 :: ps) <+: (c :: cs) then replAllF p0 ps fuel (cs.drop ps.length)
    else c :: replAllF p0 ps fuel cs

/-- Python `str.replace(old, "")` for a nonempty pattern `p0 :: ps`:
remove all non-overlapping occurrences, scanning left to right.
This is the only use of `str.replace` in `services/text.py`. -/
def replAll (p0 : Char) (ps : List Char) (l : List Char) : List Char :=
  replAllF p0 ps l.length l

/-- Fueled core of `splitWs`. -/
def splitWsF : Nat → List Char → List (List Char)
  | 0, _ => []
  | _ + 1, [] => []
  | fuel + 1, c :: cs =>
    if isWs c then splitWsF fuel cs
    else (c :: cs.takeWhile (fun d => !isWs d)) :: splitWsF fuel (cs.dropWhile (fun d => !isWs d))

/-- Python `str.split()`: split on whitespace runs, dropping empty pieces. -/
def splitWs (l : List Char) : List (List Char) := splitWsF l.length l

/-- `" ".join(tag.lower().split())` applied to a stripped tag, as in
`sanitize_spoken_text.keep_or_drop`. -/
def normTag (tag : List Char) : List Char :=
  List.intercalate [' '] (splitWs ((stripWs tag).map lowerChar))

/-- The whitelist `allowed_cues` of `sanitize_spoken_text`. -/
def allowedCues : List (List Char) :=
  ["laugh".toList, "chuckle".toList, "sigh".toList, "gasp".toList, "cough".toList,
   "clear throat".toList, "sniff".toList, "groan".toList, "shush".toList]

/-- The replacement for one regex match `\[([^\]]+)\]`: in paralinguistic
mode, `keep_or_drop` (keep a normalized whitelisted cue, drop others);
in cue-stripping mode the match is replaced by the empty string. -/
def keepOrDrop (allow : Bool) (tag : List Char) : List Char :=
  if allow then
    let tn := normTag tag
    if tn ∈ allowedCues then '[' :: (tn ++ [']']) else []
  else []

/-- Fueled core of `subTags`. -/
def subTagsF (allow : Bool) : Nat → List Char → List Char
  | 0, l => l
  | _ + 1, [] => []
  | fuel + 1, c :: cs =>
    if c = '[' then
      match cs.dropWhile (fun d => d ≠ ']') with
      | [] => c :: cs
      | _ :: rest' =>
        if cs.takeWhile (fun d => d ≠ ']') = [] then c :: subTagsF allow fuel cs
        else keepOrDrop allow (cs.takeWhile (fun d => d ≠ ']')) ++ subTagsF allow fuel rest'
    else c :: subTagsF allow fuel cs

/-- `re.sub(r"\[([^\]]+)\]", keep_or_drop, text)` (paralinguistic mode) /
`re.sub(r"\[[^\]]+\]", "", text)` (cue-stripping mode): leftmost,
non-overlapping matches; the tag runs to the first `]`. -/
def subTags (allow : Bool) (l : List Char) : List Char := subTagsF allow l.length l

/-- Fueled core of `collapseWs`. -/
def collapseWsF : Nat → List Char → List Char
  | 0, l => l
  | _ + 1, [] => []
  | fuel + 1, c :: cs =>
    if isWs c then
      if cs.takeWhile isWs = [] then c :: collapseWsF fuel cs
      else ' ' :: collapseWsF fuel (cs.dropWhile isWs)
    else c :: collapseWsF fuel cs

/-- `re.sub(r"\s{2,}", " ", text)`: each maximal run of two or more
whitespace characters becomes a single space; single whitespace
characters are left as they are. -/
def collapseWs (l : List Char) : List Char := collapseWsF l.length l

/-- `services/text.py: sanitize_spoken_text(text, allow_paralinguistic)`. -/
def sanitizeSpokenText (allow : Bool) (t : List Char) : List Char :=
  if t = [] then t
  else
    let t1 := replAll '`' [] t
    let t2 := replAll '*' ['*'] t1
    let t3 := replAll '*' [] t2
    let t4 := replAll '_' ['_'] t3
    let t5 := replAll '_' [] t4
    let t6 := subTags allow t5
    stripWs (collapseWs t6)

/-! ## Fuel irrelevance and recursion equations -/

theorem lengthDropWhileLe (p : Char → Bool) (l : List Char) :
    (l.dropWhile p).length ≤ l.length :=
  (List.dropWhile_sublist p).length_le

theorem replAllF_irrel (p0 : Char) (ps : List Char) :
    ∀ f1 f2 l, l.length ≤ f1 → l.length ≤ f2 →
      replAllF p0 ps f1 l = replAllF p0 ps f2 l := by
  intro f1
  induction f1 with
  | zero =>
    intro f2 l hl _
    have : l = [] := List.eq_nil_of_length_eq_zero (Nat.le_zero.mp hl)
    subst this
    cases f2 <;> rfl
  | succ n ih =>
    intro f2 l hl hl2
    match l with
    | [] => cases f2 <;> rfl
    | c :: cs =>
      simp only [List.length_cons] at hl hl2
      match f2 with
      | m + 1 =>
        by_cases hp : (p0 :: ps) <+: (c :: cs)
        · have hlen := List.length_drop ps.length cs
          simp only [replAllF, hp, if_true]
          exact ih m _ (by omega) (by omega)
        · simp only [replAllF, hp, if_false]
          rw [ih m cs (by omega) (by omega)]

theorem replAllF_fuel (p0 : Char) (ps : List Char) (fuel : Nat) (l : List Char)
    (h : l.length ≤ fuel) : replAllF p0 ps fuel l = replAll p0 ps l :=
  replAllF_irrel p0 ps fuel l.length l h (Nat.le_refl _)

theorem replAll_nil (p0 : Char) (ps : List Char) : replAll p0 ps [] = [] := rfl

theorem replAll_cons (p0 : Char) (ps : List Char) (c : Char) (cs : List Char) :
    replAll p0 ps (c :: cs) =
      if (p0 :: ps) <+: (c :: cs) then replAll p0 ps (cs.drop ps.length)
      else c :: replAll p0 ps cs := by
  show replAllF p0 ps (cs.length + 1) (c :: cs) = _
  by_cases hp : (p0 :: ps) <+: (c :: cs)
  · simp only [replAllF, hp, if_true]
    exact replAllF_fuel p0 ps cs.length _ (by have := List.length_drop ps.length cs; omega)
  · simp only [replAllF, hp, if_false]
    rw [replAllF_fuel p0 ps cs.length cs (Nat.le_refl _)]

theorem splitWsF_irrel :
    ∀ f1 f2 l, l.length ≤ f1 → l.length ≤ f2 → splitWsF f1 l = splitWsF f2 l := by
  intro f1
  induction f1 with
  | zero =>
    intro f2 l hl _
    have : l = [] := List.eq_nil_of_length_eq_zero (Nat.le_zero.mp hl)
    subst this
    cases f2 <;> rfl
  | succ n ih =>
    intro f2 l hl hl2
    match l with
    | [] => cases f2 <;> rfl
    | c :: cs =>
      simp only [List.length_cons] at hl hl2
      match f2 with
      | m + 1 =>
        by_cases hc : isWs c
        · simp only [splitWsF, hc, if_true]
          exact ih m cs (by omega) (by omega)
        · have hd := lengthDropWhileLe (fun d => !isWs d) cs
          simp only [splitWsF]
          rw [if_neg hc, if_neg hc, ih m _ (by omega) (by omega)]

theorem splitWsF_fuel (fuel : Nat) (l : List Char) (h : l.length ≤ fuel) :
    splitWsF fuel l = splitWs l :=
  splitWsF_irrel fuel l.length l h (Nat.le_refl _)

theorem splitWs_nil : splitWs [] = [] := rfl

theorem splitWs_cons (c : Char) (cs : List Char) :
    splitWs (c :: cs) =
      if isWs c then splitWs cs
      else (c :: cs.takeWhile (fun d => !isWs d)) ::
        splitWs (cs.dropWhile (fun d => !isWs d)) := by
  show splitWsF (cs.length + 1) (c :: cs) = _
  by_cases hc : isWs c
  · simp only [splitWsF, hc, if_true]
    exact splitWsF_fuel cs.length cs (Nat.le_refl _)
  · simp only [splitWsF]
    rw [if_neg hc, if_neg hc, splitWsF_fuel cs.length _ (lengthDropWhileLe _ cs)]

theorem subTagsF_irrel (allow : Bool) :
    ∀ f1 f2 l, l.length ≤ f1 → l.length ≤ f2 →
      subTagsF allow f1 l = subTagsF allow f2 l := by
  intro f1
  induction f1 with
  | zero =>
    intro f2 l hl _
    have : l = [] := List.eq_nil_of_length_eq_zero (Nat.le_zero.mp hl)
    subst this
    cases f2 <;> rfl
  | succ n ih =>
    intro f2 l hl hl2
    match l with
    | [] => cases f2 <;> rfl
    | c :: cs =>
      simp only [List.length_cons] at hl hl2
      match f2 with
      | m + 1 =>
        by_cases hc : c = '['
        · simp only [subTagsF, hc, if_true]
          match hdw : cs.dropWhile (fun d => d ≠ ']') with
          | [] => rfl
          | r :: rest' =>
            have hd : rest'.length < cs.length := by
              have := lengthDropWhileLe (fun d => d ≠ ']') cs
              rw [hdw] at this
              simp only [List.length_cons] at this
              omega
            by_cases ht : cs.takeWhile (fun d => d ≠ ']') = []
            · simp only [ht, if_true]
              rw [ih m cs (by omega) (by omega)]
            · simp only [ht, if_false]
              rw [ih m rest' (by omega) (by omega)]
        · simp only [subTagsF, hc, if_false]
          rw [ih m cs (by omega) (by omega)]

theorem subTagsF_fuel (allow : Bool) (fuel : Nat) (l : List Char)
    (h : l.length ≤ fuel) : subTagsF allow fuel l = subTags allow l :=
  subTagsF_irrel allow fuel l.length l h (Nat.le_refl _)

theorem subTags_nil (allow : Bool) : subTags allow [] = [] := rfl

theorem subTags_cons (allow : Bool) (c : Char) (cs : List Char) :
    subTags allow (c :: cs) =
      if c = '[' then
        match cs.dropWhile (fun d => d ≠ ']') with
        | [] => c :: cs
        | _ :: rest' =>
          if cs.takeWhile (fun d => d ≠ ']') = [] then c :: subTags allow cs
          else keepOrDrop allow (cs.takeWhile (fun d => d ≠ ']')) ++ subTags allow rest'
      else c :: subTags allow cs := by
  show subTagsF allow (cs.length + 1) (c :: cs) = _
  by_cases hc : c = '['
  · simp only [subTagsF, hc, if_true]
    match hdw : cs.dropWhile (fun d => d ≠ ']') with
    | [] => rfl
    | r :: rest' =>
      have hd : rest'.length ≤ cs.length := by
        have := lengthDropWhileLe (fun d => d ≠ ']') cs
        rw [hdw] at this
        simp only [List.length_cons] at this
        omega
      by_cases ht : cs.takeWhile (fun d => d ≠ ']') = []
      · simp only [ht, if_true]
        rw [subTagsF_fuel allow cs.length cs (Nat.le_refl _)]
      · simp only [ht, if_false]
        rw [subTagsF_fuel allow cs.length rest' hd]
  · simp only [subTagsF, hc, if_false]
    rw [subTagsF_fuel allow cs.length cs (Nat.le_refl _)]

theorem collapseWsF_irrel :
    ∀ f1 f2 l, l.length ≤ f1 → l.length ≤ f2 → collapseWsF f1 l = collapseWsF f2 l := by
  intro f1
  induction f1 with
  | zero =>
    intro f2 l hl _
    have : l = [] := List.eq_nil_of_length_eq_zero (Nat.le_zero.mp hl)
    subst this
    cases f2 <;> rfl
  | succ n ih =>
    intro f2 l hl hl2
    match l with
    | [] => cases f2 <;> rfl
    | c :: cs =>
      simp only [List.length_cons] at hl hl2
      match f2 with
      | m + 1 =>
        by_cases hc : isWs c
        · by_cases ht : cs.takeWhile isWs = []
          · simp only [collapseWsF, hc, ht, if_true]
            rw [ih m cs (by omega) (by omega)]
          · have hd := lengthDropWhileLe isWs cs
            simp only [collapseWsF]
            rw [if_pos hc, if_pos hc, if_neg ht, if_neg ht, ih m _ (by omega) (by omega)]
        · simp only [collapseWsF]
          rw [if_neg hc, if_neg hc, ih m cs (by omega) (by omega)]

theorem collapseWsF_fuel (fuel : Nat) (l : List Char) (h : l.length ≤ fuel) :
    collapseWsF fuel l = collapseWs l :=
  collapseWsF_irrel fuel l.length l h (Nat.le_refl _)

theorem collapseWs_nil : collapseWs [] = [] := rfl

theorem collapseWs_cons (c : Char) (cs : List Char) :
    collapseWs (c :: cs) =
      if isWs c then
        if cs.takeWhile isWs = [] then c :: collapseWs cs
        else ' ' :: collapseWs (cs.dropWhile isWs)
      else c :: collapseWs cs := by
  show collapseWsF (cs.length + 1) (c :: cs) = _
  by_cases hc : isWs c
  · by_cases ht : cs.takeWhile isWs = []
    · simp only [collapseWsF, hc, ht, if_true]
      rw [collapseWsF_fuel cs.length cs (Nat.le_refl _)]
    · simp only [collapseWsF]
      rw [if_pos hc, if_pos hc, if_neg ht, if_neg ht,
        collapseWsF_fuel cs.length _ (lengthDropWhileLe isWs cs)]
  · simp only [collapseWsF]
    rw [if_neg hc, if_neg hc, collapseWsF_fuel cs.length cs (Nat.le_refl _)]

/-! ## Character-level facts about the sanitizer stages -/

theorem mem_replAllF (p0 : Char) (ps : List Char) :
    ∀ fuel l a, a ∈ replAllF p0 ps fuel l → a ∈ l := by
  intro fuel
  induction fuel with
  | zero => intro l a h; exact h
  | succ n ih =>
    intro l a h
    match l with
    | [] => simp [replAllF] at h
    | c :: cs =>
      by_cases hp : (p0 :: ps) <+: (c :: cs)
      · simp only [replAllF, hp, if_true] at h
        exact List.mem_cons_of_mem c ((List.drop_subset _ cs) (ih _ a h))
      · simp only [replAllF, hp, if_false, List.mem_cons] at h
        rcases h with h | h
        · exact h ▸ List.mem_cons_self c cs
        · exact List.mem_cons_of_mem c (ih cs a h)

theorem mem_replAll (p0 : Char) (ps : List Char) (l : List Char) (a : Char)
    (h : a ∈ replAll p0 ps l) : a ∈ l :=
  mem_replAllF p0 ps l.length l a h

theorem replAllF_eq_self (p0 : Char) (ps : List Char) :
    ∀ fuel l, p0 ∉ l → replAllF p0 ps fuel l = l := by
  intro fuel
  induction fuel with
  | zero => intro l _; rfl
  | succ n ih =>
    intro l hl
    match l with
    | [] => rfl
    | c :: cs =>
      have hp : ¬ (p0 :: ps) <+: (c :: cs) := by
        intro hpre
        rcases hpre with ⟨w, hw⟩
        have : c = p0 := by
          have := congrArg (List.head? ·) hw
          simpa using this.symm
        exact hl (this ▸ List.mem_cons_self c cs)
      simp only [replAllF, hp, if_false]
      rw [ih cs (fun h => hl (List.mem_cons_of_mem c h))]

theorem replAll_eq_self (p0 : Char) (ps : List Char) (l : List Char) (h : p0 ∉ l) :
    replAll p0 ps l = l :=
  replAllF_eq_self p0 ps l.length l h

theorem not_mem_replAllF_single (p0 : Char) :
    ∀ fuel l, l.length ≤ fuel → p0 ∉ replAllF p0 [] fuel l := by
  intro fuel
  induction fuel with
  | zero =>
    intro l hl
    have : l = [] := List.eq_nil_of_length_eq_zero (Nat.le_zero.mp hl)
    subst this; simp [replAllF]
  | succ n ih =>
    intro l hl
    match l with
    | [] => simp [replAllF]
    | c :: cs =>
      simp only [List.length_cons] at hl
      by_cases hp : ([p0] : List Char) <+: (c :: cs)
      · simp only [replAllF, hp, if_true, List.drop_zero]
        exact ih cs (by omega)
      · have hc : c ≠ p0 := by
          intro hcp
          exact hp ⟨cs, by rw [hcp]; rfl⟩
        simp only [replAllF, hp, if_false, List.mem_cons]
        push_neg
        exact ⟨fun h => hc h.symm, ih cs (by omega)⟩

theorem not_mem_replAll_single (p0 : Char) (l : List Char) : p0 ∉ replAll p0 [] l :=
  not_mem_replAllF_single p0 l.length l (Nat.le_refl _)

/-- `NoBanned t`: t contains none of the markdown characters removed by
the `str.replace` stage of `sanitize_spoken_text`. -/
def NoBanned (t : List Char) : Prop := '`' ∉ t ∧ '*' ∉ t ∧ '_' ∉ t

/-- The replace stage (backtick, `**`, `*`, `__`, `_`) of the sanitizer. -/
def replStage (t : List Char) : List Char :=
  replAll '_' [] (replAll '_' ['_'] (replAll '*' [] (replAll '*' ['*'] (replAll '`' [] t))))

theorem replStage_noBanned (t : List Char) : NoBanned (replStage t) := by
  refine ⟨?_, ?_, ?_⟩
  · intro h
    have h1 := mem_replAll _ _ _ _ h
    have h2 := mem_replAll _ _ _ _ h1
    have h3 := mem_replAll _ _ _ _ h2
    have h4 := mem_replAll _ _ _ _ h3
    exact not_mem_replAll_single '`' t h4
  · intro h
    have h1 := mem_replAll _ _ _ _ h
    have h2 := mem_replAll _ _ _ _ h1
    exact not_mem_replAll_single '*' _ h2
  · exact not_mem_replAll_single '_' _

theorem replStage_eq_self (t : List Char) (h : NoBanned t) : replStage t = t := by
  obtain ⟨h1, h2, h3⟩ := h
  unfold replStage
  rw [replAll_eq_self '`' [] t h1, replAll_eq_self '*' ['*'] t h2,
    replAll_eq_self '*' [] t h2, replAll_eq_self '_' ['_'] t h3,
    replAll_eq_self '_' [] t h3]

theorem sanitizeSpokenText_eq (allow : Bool) (t : List Char) (h : t ≠ []) :
    sanitizeSpokenText allow t = stripWs (collapseWs (subTags allow (replStage t))) := by
  simp only [sanitizeSpokenText, h, if_false]
  rfl

/-! ## Structure of the tag-substitution scan -/

theorem listStrongInd (P : List Char → Prop)
    (h : ∀ l, (∀ m, m.length < l.length → P m) → P l) (l : List Char) : P l := by
  have key : ∀ n (l : List Char), l.length ≤ n → P l := by
    intro n
    induction n with
    | zero =>
      intro l hl
      exact h l (fun m hm => absurd (Nat.lt_of_lt_of_le hm hl) (Nat.not_lt_zero _))
    | succ k ih =>
      intro l hl
      exact h l (fun m hm => ih m (by omega))
  exact key l.length l (Nat.le_refl _)

theorem dropWhile_head_false {p : Char → Bool} {l : List Char} {a : Char} {l' : List Char}
    (h : l.dropWhile p = a :: l') : p a = false := by
  induction l with
  | nil => simp at h
  | cons c cs ih =>
    by_cases hc : p c
    · rw [List.dropWhile_cons_of_pos hc] at h
      exact ih h
    · rw [List.dropWhile_cons_of_neg hc] at h
      cases h
      exact Bool.eq_false_iff.mpr hc

theorem takeWhile_append_all {p : Char → Bool} (u v : List Char)
    (h : ∀ a ∈ u, p a) : (u ++ v).takeWhile p = u ++ v.takeWhile p := by
  induction u with
  | nil => simp
  | cons c cs ih =>
    have hc : p c := h c (List.mem_cons_self c cs)
    simp only [List.cons_append, List.takeWhile_cons_of_pos hc]
    rw [ih (fun a ha => h a (List.mem_cons_of_mem c ha))]

theorem dropWhile_append_all {p : Char → Bool} (u v : List Char)
    (h : ∀ a ∈ u, p a) : (u ++ v).dropWhile p = v.dropWhile p := by
  induction u with
  | nil => simp
  | cons c cs ih =>
    have hc : p c := h c (List.mem_cons_self c cs)
    simp only [List.cons_append, List.dropWhile_cons_of_pos hc]
    exact ih (fun a ha => h a (List.mem_cons_of_mem c ha))

theorem takeWhile_tag (tag rest : List Char) (h : ']' ∉ tag) :
    (tag ++ ']' :: rest).takeWhile (fun d => d ≠ ']') = tag := by
  rw [takeWhile_append_all _ _ (fun a ha => by
    simp only [ne_eq, decide_eq_true_eq]
    intro hq; exact h (hq ▸ ha))]
  simp

theorem dropWhile_tag (tag rest : List Char) (h : ']' ∉ tag) :
    (tag ++ ']' :: rest).dropWhile (fun d => d ≠ ']') = ']' :: rest := by
  rw [dropWhile_append_all _ _ (fun a ha => by
    simp only [ne_eq, decide_eq_true_eq]
    intro hq; exact h (hq ▸ ha))]
  simp

theorem subTags_cons_ne (allow : Bool) (c : Char) (cs : List Char) (hc : c ≠ '[') :
    subTags allow (c :: cs) = c :: subTags allow cs := by
  rw [subTags_cons, if_neg hc]

theorem subTags_no_rb (allow : Bool) (cs : List Char) (h : ']' ∉ cs) :
    subTags allow ('[' :: cs) = '[' :: cs := by
  rw [subTags_cons, if_pos rfl]
  have hd : cs.dropWhile (fun d => d ≠ ']') = [] := by
    rw [List.dropWhile_eq_nil_iff]
    intro a ha
    simp only [ne_eq, decide_eq_true_eq]
    intro hq; exact h (hq ▸ ha)
  rw [hd]

theorem subTags_empty_tag (allow : Bool) (rest : List Char) :
    subTags allow ('[' :: ']' :: rest) = '[' :: ']' :: subTags allow rest := by
  rw [subTags_cons, if_pos rfl]
  have hd : (']' :: rest).dropWhile (fun d => d ≠ ']') = ']' :: rest :=
    List.dropWhile_cons_of_neg (by simp)
  have ht : (']' :: rest).takeWhile (fun d => d ≠ ']') = [] :=
    List.takeWhile_cons_of_neg (by simp)
  rw [hd, ht]
  simp only [if_true]
  rw [subTags_cons_ne allow ']' rest (by decide)]

theorem subTags_match (allow : Bool) (tag rest : List Char)
    (h1 : ']' ∉ tag) (h2 : tag ≠ []) :
    subTags allow ('[' :: (tag ++ ']' :: rest)) =
      keepOrDrop allow tag ++ subTags allow rest := by
  rw [subTags_cons, if_pos rfl, dropWhile_tag tag rest h1, takeWhile_tag tag rest h1]
  simp only [if_neg h2]

/-- Decomposition of the scan at a `[`: either no `]` follows, or the
input splits as `tag ++ ']' :: rest` with `]`-free `tag`. -/
theorem scan_decomp (cs : List Char) :
    (']' ∉ cs) ∨ ∃ tag rest, cs = tag ++ ']' :: rest ∧ ']' ∉ tag := by
  match hdw : cs.dropWhile (fun d => d ≠ ']') with
  | [] =>
    left
    intro hmem
    have := List.dropWhile_eq_nil_iff.mp hdw ']' hmem
    simp at this
  | r :: rest =>
    right
    have hr : r = ']' := by
      have := dropWhile_head_false hdw
      simpa using this
    refine ⟨cs.takeWhile (fun d => d ≠ ']'), rest, ?_, ?_⟩
    · conv_lhs => rw [← List.takeWhile_append_dropWhile (fun d => d ≠ ']') cs]
      rw [hdw, hr]
    · intro hmem
      have := List.mem_takeWhile_imp hmem
      simp at this

theorem allowedCues_facts :
    ∀ tn ∈ allowedCues, normTag tn = tn ∧ tn ≠ [] ∧ ']' ∉ tn ∧ '[' ∉ tn := by
  decide

theorem keepOrDrop_cases (allow : Bool) (tag : List Char) :
    keepOrDrop allow tag = [] ∨
      (allow = true ∧ normTag tag ∈ allowedCues ∧
        keepOrDrop allow tag = '[' :: (normTag tag ++ [']'])) := by
  cases allow with
  | false => left; rfl
  | true =>
    by_cases hm : normTag tag ∈ allowedCues
    · right
      exact ⟨rfl, hm, by simp [keepOrDrop, hm]⟩
    · left
      simp [keepOrDrop, hm]

/-- The scan is idempotent: its output contains no further rewritable
tag, except whitelisted cues which it maps to themselves. -/
theorem subTags_idem (allow : Bool) (l : List Char) :
    subTags allow (subTags allow l) = subTags allow l := by
  induction l using listStrongInd with
  | _ l ih =>
    match l with
    | [] => rfl
    | c :: cs =>
      by_cases hc : c = '['
      · subst hc
        rcases scan_decomp cs with hno | ⟨tag, rest, hdec, htag⟩
        · rw [subTags_no_rb allow cs hno, subTags_no_rb allow cs hno]
        · subst hdec
          match tag with
          | [] =>
            simp only [List.nil_append]
            rw [subTags_empty_tag allow rest, subTags_empty_tag allow (subTags allow rest),
              ih rest (by simp [List.length_cons]; omega)]
          | t0 :: ts =>
            rw [subTags_match allow (t0 :: ts) rest htag (by simp)]
            have hlen : rest.length < ('[' :: ((t0 :: ts) ++ ']' :: rest)).length := by
              simp [List.length_append, List.length_cons]
              omega
            rcases keepOrDrop_cases allow (t0 :: ts) with hkd | ⟨hallow, hmem, hkd⟩
            · rw [hkd, List.nil_append]
              exact ih rest hlen
            · rw [hkd]
              obtain ⟨hnorm, hne, hrb, _⟩ := allowedCues_facts _ hmem
              have : ('[' :: (normTag (t0 :: ts) ++ [']'])) ++ subTags allow rest =
                  '[' :: (normTag (t0 :: ts) ++ ']' :: subTags allow rest) := by
                simp
              rw [this, subTags_match allow (normTag (t0 :: ts)) (subTags allow rest) hrb hne]
              rw [ih rest hlen]
              have hkd2 : keepOrDrop allow (normTag (t0 :: ts)) =
                  '[' :: (normTag (t0 :: ts) ++ [']']) := by
                rw [hallow]
                simp [keepOrDrop, hnorm, hmem]
              rw [hkd2]
              simp
      · rw [subTags_cons_ne allow c cs hc, subTags_cons_ne allow c (subTags allow cs) hc,
          ih cs (by simp [List.length_cons])]

/-! ## Whitespace segments and the scan -/

theorem ws_ne_brackets {a : Char} (h : isWs a = true) : a ≠ '[' ∧ a ≠ ']' := by
  constructor <;> intro he <;> subst he <;> exact absurd h (by decide)

/-- All characters of the segment are whitespace. -/
def AllWs (w : List Char) : Prop := ∀ a ∈ w, isWs a = true

theorem allWs_no_rb {w : List Char} (h : AllWs w) : ']' ∉ w := fun hm =>
  (ws_ne_brackets (h ']' hm)).2 rfl

theorem subTags_allWs (allow : Bool) (w : List Char) (h : AllWs w) :
    subTags allow w = w := by
  induction w with
  | nil => rfl
  | cons c cs ih =>
    have hc : c ≠ '[' := (ws_ne_brackets (h c (List.mem_cons_self c cs))).1
    rw [subTags_cons_ne allow c cs hc, ih (fun a ha => h a (List.mem_cons_of_mem c ha))]

theorem subTags_ws_prefix (allow : Bool) (w u : List Char) (h : AllWs w) :
    subTags allow (w ++ u) = w ++ subTags allow u := by
  induction w with
  | nil => simp
  | cons c cs ih =>
    have hc : c ≠ '[' := (ws_ne_brackets (h c (List.mem_cons_self c cs))).1
    rw [List.cons_append, subTags_cons_ne allow c _ hc,
      ih (fun a ha => h a (List.mem_cons_of_mem c ha)), List.cons_append]

theorem subTags_append_ws (allow : Bool) (w : List Char) (hw : AllWs w) :
    ∀ u, subTags allow (u ++ w) = subTags allow u ++ w := by
  intro u
  induction u using listStrongInd with
  | _ u ih =>
    match u with
    | [] => simpa using subTags_allWs allow w hw
    | c :: cs =>
      by_cases hc : c = '['
      · subst hc
        rcases scan_decomp cs with hno | ⟨tag, rest, hdec, htag⟩
        · have hno2 : ']' ∉ cs ++ w := by
            intro hmem
            rcases List.mem_append.mp hmem with h1 | h1
            · exact hno h1
            · exact allWs_no_rb hw h1
          rw [List.cons_append, subTags_no_rb allow _ hno2, subTags_no_rb allow cs hno]
          simp
        · subst hdec
          match tag with
          | [] =>
            simp only [List.nil_append, List.cons_append]
            rw [subTags_empty_tag, subTags_empty_tag,
              ih rest (by simp [List.length_cons]; omega)]
            simp
          | t0 :: ts =>
            have hre : ('[' :: (t0 :: ts ++ ']' :: rest)) ++ w =
                '[' :: ((t0 :: ts) ++ ']' :: (rest ++ w)) := by simp
            rw [hre, subTags_match allow (t0 :: ts) (rest ++ w) htag (by simp),
              subTags_match allow (t0 :: ts) rest htag (by simp),
              ih rest (by simp [List.length_append, List.length_cons]; omega)]
            simp
      · rw [List.cons_append, subTags_cons_ne allow c _ hc, subTags_cons_ne allow c cs hc,
          ih cs (by simp [List.length_cons]), List.cons_append]

/-- Fixedness under the scan survives `str.strip()`. -/
theorem fixed_stripWs (allow : Bool) (t : List Char) (h : subTags allow t = t) :
    subTags allow (stripWs t) = stripWs t := by
  -- peel the leading whitespace
  have hlead : t = t.takeWhile isWs ++ dropLeadWs t :=
    (List.takeWhile_append_dropWhile isWs t).symm
  have hwlead : AllWs (t.takeWhile isWs) := fun a ha => List.mem_takeWhile_imp ha
  have hfix1 : subTags allow (dropLeadWs t) = dropLeadWs t := by
    have := h
    rw [hlead, subTags_ws_prefix allow _ _ hwlead] at this
    exact List.append_cancel_left this
  -- peel the trailing whitespace
  set t' := dropLeadWs t with ht'
  have htail : t' = dropTrailWs t' ++ (t'.reverse.takeWhile isWs).reverse := by
    have hr : t'.reverse = t'.reverse.takeWhile isWs ++ t'.reverse.dropWhile isWs :=
      (List.takeWhile_append_dropWhile isWs t'.reverse).symm
    have := congrArg List.reverse hr
    rw [List.reverse_reverse, List.reverse_append] at this
    exact this
  have hwtail : AllWs (t'.reverse.takeWhile isWs).reverse := fun a ha => by
    rw [List.mem_reverse] at ha
    exact List.mem_takeWhile_imp ha
  have hfix2 : subTags allow (dropTrailWs t') = dropTrailWs t' := by
    have := hfix1
    rw [htail, subTags_append_ws allow _ hwtail] at this
    exact List.append_cancel_right this
  exact hfix2

/-! ## Length bounds for the scan -/

theorem ic_nil (s : List Char) : List.intercalate s [] = [] := by
  simp [List.intercalate]

theorem ic_single (s x : List Char) : List.intercalate s [x] = x := by
  simp [List.intercalate]

theorem ic_cons2 (s x y : List Char) (xs : List (List Char)) :
    List.intercalate s (x :: y :: xs) = x ++ s ++ List.intercalate s (y :: xs) := by
  simp [List.intercalate, List.intersperse]

theorem takeWhile_drop_len (p : Char → Bool) (l : List Char) :
    (l.takeWhile p).length + (l.dropWhile p).length = l.length := by
  conv_rhs => rw [← List.takeWhile_append_dropWhile p l]
  rw [List.length_append]

theorem ic_splitWs_le : ∀ u : List Char,
    (List.intercalate [' '] (splitWs u)).length ≤ u.length := by
  intro u
  induction u using listStrongInd with
  | _ u ih =>
    match u with
    | [] => simp [splitWs_nil, ic_nil]
    | c :: cs =>
      by_cases hc : isWs c
      · rw [splitWs_cons, if_pos hc]
        have := ih cs (by simp [List.length_cons])
        simp only [List.length_cons]
        omega
      · rw [splitWs_cons, if_neg hc]
        have hlen : (cs.takeWhile (fun d => !isWs d)).length +
            (cs.dropWhile (fun d => !isWs d)).length = cs.length := takeWhile_drop_len _ cs
        match hdd : cs.dropWhile (fun d => !isWs d) with
        | [] =>
          rw [splitWs_nil, ic_single]
          rw [hdd] at hlen
          simp only [List.length_cons, List.length_nil] at hlen ⊢
          omega
        | d :: dw' =>
          have hd : isWs d := by
            have := dropWhile_head_false hdd
            simpa using this
          rw [splitWs_cons, if_pos hd]
          rw [hdd] at hlen
          simp only [List.length_cons] at hlen
          have hrec := ih dw' (by simp only [List.length_cons]; omega)
          match hsp : splitWs dw' with
          | [] =>
            rw [ic_single]
            simp only [List.length_cons]
            omega
          | q :: qs =>
            rw [ic_cons2]
            rw [hsp] at hrec
            simp only [List.length_append, List.length_cons, List.length_nil]
            omega

theorem stripWs_length_le (t : List Char) : (stripWs t).length ≤ t.length := by
  have h1 : (dropLeadWs t).length ≤ t.length := lengthDropWhileLe isWs t
  have h2 : (dropTrailWs (dropLeadWs t)).length ≤ (dropLeadWs t).length := by
    unfold dropTrailWs
    rw [List.length_reverse]
    calc ((dropLeadWs t).reverse.dropWhile isWs).length
        ≤ (dropLeadWs t).reverse.length := lengthDropWhileLe isWs _
      _ = (dropLeadWs t).length := List.length_reverse _
  exact Nat.le_trans h2 h1

theorem normTag_length_le (tag : List Char) : (normTag tag).length ≤ tag.length := by
  unfold normTag
  calc (List.intercalate [' '] (splitWs ((stripWs tag).map lowerChar))).length
      ≤ ((stripWs tag).map lowerChar).length := ic_splitWs_le _
    _ = (stripWs tag).length := List.length_map _ _
    _ ≤ tag.length := stripWs_length_le tag

theorem keepOrDrop_length_le (allow : Bool) (tag : List Char) :
    (keepOrDrop allow tag).length ≤ tag.length + 2 := by
  rcases keepOrDrop_cases allow tag with h | ⟨_, _, h⟩
  · rw [h]; simp
  · rw [h]
    simp only [List.length_cons, List.length_append, List.length_cons, List.length_nil]
    have := normTag_length_le tag
    omega

theorem length_subTags_le (allow : Bool) : ∀ l, (subTags allow l).length ≤ l.length := by
  intro l
  induction l using listStrongInd with
  | _ l ih =>
    match l with
    | [] => simp [subTags_nil]
    | c :: cs =>
      by_cases hc : c = '['
      · subst hc
        rcases scan_decomp cs with hno | ⟨tag, rest, hdec, htag⟩
        · rw [subTags_no_rb allow cs hno]
        · subst hdec
          match tag with
          | [] =>
            rw [List.nil_append, subTags_empty_tag]
            have := ih rest (by simp [List.length_cons]; omega)
            simp only [List.length_cons]
            omega
          | t0 :: ts =>
            rw [subTags_match allow (t0 :: ts) rest htag (by simp)]
            have h1 := keepOrDrop_length_le allow (t0 :: ts)
            have h2 := ih rest (by simp [List.length_append, List.length_cons]; omega)
            simp only [List.length_append, List.length_cons] at h1 h2 ⊢
            omega
      · rw [subTags_cons_ne allow c cs hc]
        have := ih cs (by simp [List.length_cons])
        simp only [List.length_cons]
        omega

theorem append_rbracket_inj : ∀ u v a b : List Char, ']' ∉ u → ']' ∉ v →
    u ++ ']' :: a = v ++ ']' :: b → u = v ∧ a = b := by
  intro u
  induction u with
  | nil =>
    intro v a b _ hv h
    match v with
    | [] => simpa using h
    | x :: v' =>
      rw [List.nil_append, List.cons_append] at h
      cases h
      exact absurd (List.mem_cons_self ']' v') hv
  | cons x u' ih =>
    intro v a b hu hv h
    match v with
    | [] =>
      rw [List.nil_append, List.cons_append] at h
      cases h
      exact absurd (List.mem_cons_self ']' u') hu
    | y :: v' =>
      simp only [List.cons_append, List.cons.injEq] at h
      obtain ⟨hxy, hrest⟩ := h
      have := ih v' a b (fun hm => hu (List.mem_cons_of_mem x hm))
        (fun hm => hv (List.mem_cons_of_mem y hm)) hrest
      exact ⟨by rw [hxy, this.1], this.2⟩

/-! ## Whitespace runs and the collapse stage -/

/-- No two adjacent whitespace characters (i.e. `\s{2,}` has no match). -/
def noWsRun : List Char → Bool
  | [] => true
  | [_] => true
  | a :: b :: t => (!(isWs a && isWs b)) && noWsRun (b :: t)

theorem noWsRun_tail {a : Char} {l : List Char} (h : noWsRun (a :: l) = true) :
    noWsRun l = true := by
  match l with
  | [] => rfl
  | b :: t =>
    simp only [noWsRun, Bool.and_eq_true] at h
    exact h.2

theorem noWsRun_cons_nonws {a : Char} {l : List Char} (ha : isWs a = false)
    (h : noWsRun l = true) : noWsRun (a :: l) = true := by
  match l with
  | [] => rfl
  | b :: t =>
    simp only [noWsRun, Bool.and_eq_true, Bool.not_eq_true', Bool.and_eq_false_iff]
    exact ⟨Or.inl ha, h⟩

theorem noWsRun_cons_head {a : Char} {l : List Char} (h : noWsRun l = true)
    (hl : l = [] ∨ ∃ d l', l = d :: l' ∧ isWs d = false) : noWsRun (a :: l) = true := by
  rcases hl with hnil | ⟨d, l', hdl, hd⟩
  · subst hnil; rfl
  · subst hdl
    simp only [noWsRun, Bool.and_eq_true, Bool.not_eq_true', Bool.and_eq_false_iff]
    exact ⟨Or.inr hd, h⟩

theorem noWsRun_pair {a b : Char} {l : List Char} (h : noWsRun (a :: b :: l) = true)
    (ha : isWs a = true) : isWs b = false := by
  simp only [noWsRun, Bool.and_eq_true, Bool.not_eq_true', Bool.and_eq_false_iff] at h
  rcases h.1 with h1 | h1
  · rw [ha] at h1; exact absurd h1 (by simp)
  · exact h1

theorem takeWhile_nil_head {d : Char} {cs : List Char}
    (h : (d :: cs).takeWhile isWs = []) : isWs d = false := by
  by_cases hd : isWs d
  · rw [List.takeWhile_cons_of_pos hd] at h
    exact List.noConfusion h
  · exact Bool.eq_false_iff.mpr hd

theorem collapse_cons_nonws {c : Char} (cs : List Char) (hc : isWs c = false) :
    collapseWs (c :: cs) = c :: collapseWs cs := by
  rw [collapseWs_cons, if_neg (by simp [hc])]

theorem collapse_cons_ws_single {c : Char} (cs : List Char) (hc : isWs c = true)
    (ht : cs.takeWhile isWs = []) : collapseWs (c :: cs) = c :: collapseWs cs := by
  rw [collapseWs_cons, if_pos hc, if_pos ht]

theorem collapse_cons_run {c : Char} (cs : List Char) (hc : isWs c = true)
    (ht : cs.takeWhile isWs ≠ []) :
    collapseWs (c :: cs) = ' ' :: collapseWs (cs.dropWhile isWs) := by
  rw [collapseWs_cons, if_pos hc, if_neg ht]

theorem mem_collapseWs (a : Char) : ∀ l, a ∈ collapseWs l → a ∈ l ∨ a = ' ' := by
  intro l
  induction l using listStrongInd with
  | _ l ih =>
    match l with
    | [] => intro h; rw [collapseWs_nil] at h; exact absurd h (List.not_mem_nil a)
    | c :: cs =>
      intro h
      by_cases hc : isWs c
      · by_cases ht : cs.takeWhile isWs = []
        · rw [collapse_cons_ws_single cs hc ht] at h
          rcases List.mem_cons.mp h with h1 | h1
          · exact Or.inl (h1 ▸ List.mem_cons_self c cs)
          · rcases ih cs (by simp [List.length_cons]) h1 with h2 | h2
            · exact Or.inl (List.mem_cons_of_mem c h2)
            · exact Or.inr h2
        · rw [collapse_cons_run cs hc ht] at h
          rcases List.mem_cons.mp h with h1 | h1
          · exact Or.inr h1
          · have hlt : (cs.dropWhile isWs).length < (c :: cs).length := by
              have := lengthDropWhileLe isWs cs
              simp only [List.length_cons]
              omega
            rcases ih _ hlt h1 with h2 | h2
            · exact Or.inl (List.mem_cons_of_mem c ((List.dropWhile_sublist isWs).mem h2))
            · exact Or.inr h2
      · rw [collapse_cons_nonws cs (Bool.eq_false_iff.mpr hc)] at h
        rcases List.mem_cons.mp h with h1 | h1
        · exact Or.inl (h1 ▸ List.mem_cons_self c cs)
        · rcases ih cs (by simp [List.length_cons]) h1 with h2 | h2
          · exact Or.inl (List.mem_cons_of_mem c h2)
          · exact Or.inr h2

theorem collapse_head_nonws : ∀ l : List Char,
    (∀ d l', l = d :: l' → isWs d = false) →
    collapseWs l = [] ∨ ∃ d l', collapseWs l = d :: l' ∧ isWs d = false := by
  intro l hl
  match l with
  | [] => left; rfl
  | d :: l' =>
    right
    have hd := hl d l' rfl
    exact ⟨d, collapseWs l', collapse_cons_nonws l' hd, hd⟩

theorem collapse_noWsRun : ∀ l, noWsRun (collapseWs l) = true := by
  intro l
  induction l using listStrongInd with
  | _ l ih =>
    match l with
    | [] => rfl
    | c :: cs =>
      by_cases hc : isWs c
      · by_cases ht : cs.takeWhile isWs = []
        · rw [collapse_cons_ws_single cs hc ht]
          refine noWsRun_cons_head (ih cs (by simp [List.length_cons])) ?_
          match cs with
          | [] => exact Or.inl collapseWs_nil
          | d :: cs' =>
            have hd := takeWhile_nil_head ht
            exact Or.inr ⟨d, collapseWs cs', collapse_cons_nonws cs' hd, hd⟩
        · rw [collapse_cons_run cs hc ht]
          have hlt : (cs.dropWhile isWs).length < (c :: cs).length := by
            have := lengthDropWhileLe isWs cs
            simp only [List.length_cons]
            omega
          refine noWsRun_cons_head (ih _ hlt) ?_
          match hdd : cs.dropWhile isWs with
          | [] => exact Or.inl (by rw [collapseWs_nil])
          | d :: cs' =>
            have hd := dropWhile_head_false hdd
            exact Or.inr ⟨d, collapseWs cs', collapse_cons_nonws cs' hd, hd⟩
      · rw [collapse_cons_nonws cs (Bool.eq_false_iff.mpr hc)]
        exact noWsRun_cons_nonws (Bool.eq_false_iff.mpr hc) (ih cs (by simp [List.length_cons]))

theorem collapse_eq_self : ∀ l, noWsRun l = true → collapseWs l = l := by
  intro l
  induction l using listStrongInd with
  | _ l ih =>
    match l with
    | [] => intro _; rfl
    | c :: cs =>
      intro h
      by_cases hc : isWs c
      · have ht : cs.takeWhile isWs = [] := by
          match cs with
          | [] => rfl
          | b :: cs' =>
            have hb : isWs b = false := noWsRun_pair h hc
            exact List.takeWhile_cons_of_neg (by simp [hb])
        rw [collapse_cons_ws_single cs hc ht, ih cs (by simp [List.length_cons]) (noWsRun_tail h)]
      · rw [collapse_cons_nonws cs (Bool.eq_false_iff.mpr hc),
          ih cs (by simp [List.length_cons]) (noWsRun_tail h)]

theorem collapse_append_noRun {x : Char} (hx : isWs x = false) :
    ∀ u r, noWsRun u = true → collapseWs (u ++ x :: r) = u ++ collapseWs (x :: r) := by
  intro u
  induction u with
  | nil => intro r _; simp
  | cons a u' ih =>
    intro r hu
    by_cases ha : isWs a
    · have ht : (u' ++ x :: r).takeWhile isWs = [] := by
        match u' with
        | [] => exact List.takeWhile_cons_of_neg (by simp [hx])
        | b :: u'' =>
          have hb : isWs b = false := noWsRun_pair hu ha
          exact List.takeWhile_cons_of_neg (by simp [hb])
      rw [List.cons_append, collapse_cons_ws_single _ ha ht, ih r (noWsRun_tail hu),
        List.cons_append]
    · rw [List.cons_append, collapse_cons_nonws _ (Bool.eq_false_iff.mpr ha),
        ih r (noWsRun_tail hu), List.cons_append]

theorem fixed_dropWhile_ws (allow : Bool) :
    ∀ l, subTags allow l = l → subTags allow (l.dropWhile isWs) = l.dropWhile isWs := by
  intro l
  induction l with
  | nil => intro _; rfl
  | cons c cs ih =>
    intro h
    by_cases hc : isWs c
    · rw [List.dropWhile_cons_of_pos hc]
      have hcne : c ≠ '[' := (ws_ne_brackets hc).1
      rw [subTags_cons_ne allow c cs hcne] at h
      exact ih (List.cons.inj h).2
    · rwa [List.dropWhile_cons_of_neg hc]

theorem allowedCues_noWsRun : ∀ tn ∈ allowedCues, noWsRun tn = true := by decide

/-- Fixedness under the scan survives whitespace collapsing. -/
theorem collapse_fixed (allow : Bool) : ∀ l, subTags allow l = l →
    subTags allow (collapseWs l) = collapseWs l := by
  intro l
  induction l using listStrongInd with
  | _ l ih =>
    match l with
    | [] => intro _; rw [collapseWs_nil]; rfl
    | c :: cs =>
      intro hfix
      by_cases hc : c = '['
      · subst hc
        rcases scan_decomp cs with hno | ⟨tag, rest, hdec, htag⟩
        · rw [collapse_cons_nonws cs (by decide)]
          have hno2 : ']' ∉ collapseWs cs := by
            intro hm
            rcases mem_collapseWs ']' cs hm with h1 | h1
            · exact hno h1
            · exact absurd h1 (by decide)
          exact subTags_no_rb allow _ hno2
        · subst hdec
          match tag with
          | [] =>
            rw [List.nil_append] at hfix ⊢
            rw [subTags_empty_tag] at hfix
            have hrest : subTags allow rest = rest := (List.cons.inj (List.cons.inj hfix).2).2
            rw [collapse_cons_nonws _ (by decide), collapse_cons_nonws rest (by decide),
              subTags_empty_tag,
              ih rest (by simp only [List.length_cons, List.nil_append]; omega) hrest]
          | t0 :: ts =>
            have hlen : rest.length < ('[' :: ((t0 :: ts) ++ ']' :: rest)).length := by
              simp only [List.length_cons, List.length_append]
              omega
            rw [subTags_match allow (t0 :: ts) rest htag (by simp)] at hfix
            rcases keepOrDrop_cases allow (t0 :: ts) with hkd | ⟨hallow, hmem, hkd⟩
            · rw [hkd, List.nil_append] at hfix
              have h1 := length_subTags_le allow rest
              have h2 := congrArg List.length hfix
              simp only [List.length_cons, List.length_append] at h2
              omega
            · rw [hkd] at hfix
              have heq : normTag (t0 :: ts) ++ ']' :: subTags allow rest =
                  (t0 :: ts) ++ ']' :: rest := by
                have h2 := (List.cons.inj hfix).2
                simpa [List.append_assoc] using h2
              obtain ⟨hnormn, hnen, hrbn, hlbn⟩ := allowedCues_facts _ hmem
              obtain ⟨htn, hrest⟩ := append_rbracket_inj _ _ _ _ hrbn htag heq
              have hnr : noWsRun (t0 :: ts) = true := htn ▸ allowedCues_noWsRun _ hmem
              rw [collapse_cons_nonws _ (by decide),
                collapse_append_noRun (by decide) (t0 :: ts) rest hnr,
                collapse_cons_nonws rest (by decide),
                subTags_match allow (t0 :: ts) (collapseWs rest) htag (by simp),
                ih rest hlen hrest, hkd, htn]
              simp
      · have hcs : subTags allow cs = cs := by
          rw [subTags_cons_ne allow c cs hc] at hfix
          exact (List.cons.inj hfix).2
        by_cases hw : isWs c
        · by_cases ht : cs.takeWhile isWs = []
          · rw [collapse_cons_ws_single cs hw ht, subTags_cons_ne allow c _ hc,
              ih cs (by simp [List.length_cons]) hcs]
          · rw [collapse_cons_run cs hw ht]
            have hlt : (cs.dropWhile isWs).length < (c :: cs).length := by
              have := lengthDropWhileLe isWs cs
              simp only [List.length_cons]
              omega
            rw [subTags_cons_ne allow ' ' _ (by decide),
              ih _ hlt (fixed_dropWhile_ws allow cs hcs)]
        · rw [collapse_cons_nonws cs (Bool.eq_false_iff.mpr hw),
            subTags_cons_ne allow c _ hc, ih cs (by simp [List.length_cons]) hcs]

/-! ## The strip stage -/

/-- Leading and trailing characters (if any) are not whitespace. -/
def Stripped (t : List Char) : Prop :=
  (∀ a, t.head? = some a → isWs a = false) ∧ (∀ a, t.getLast? = some a → isWs a = false)

theorem dropLeadWs_eq_self {t : List Char}
    (h : ∀ a, t.head? = some a → isWs a = false) : dropLeadWs t = t := by
  match t with
  | [] => rfl
  | c :: cs =>
    have hc := h c rfl
    exact List.dropWhile_cons_of_neg (by simp [hc])

theorem dropTrailWs_eq_self {t : List Char}
    (h : ∀ a, t.getLast? = some a → isWs a = false) : dropTrailWs t = t := by
  unfold dropTrailWs
  have hrev : ∀ a, t.reverse.head? = some a → isWs a = false := by
    intro a ha
    rw [List.head?_reverse] at ha
    exact h a ha
  have : t.reverse.dropWhile isWs = t.reverse := by
    match hr : t.reverse with
    | [] => rfl
    | c :: cs =>
      have hc := hrev c (by rw [hr]; rfl)
      exact List.dropWhile_cons_of_neg (by simp [hc])
  rw [this, List.reverse_reverse]

theorem stripWs_eq_self {t : List Char} (h : Stripped t) : stripWs t = t := by
  unfold stripWs
  rw [dropLeadWs_eq_self h.1, dropTrailWs_eq_self h.2]

theorem stripWs_stripped (t : List Char) : Stripped (stripWs t) := by
  constructor
  · intro a ha
    -- the head of `stripWs t` is the head of `dropLeadWs t`, which fails `isWs`
    unfold stripWs dropTrailWs at ha
    match hu : dropLeadWs t with
    | [] => rw [hu] at ha; simp at ha
    | c :: cs =>
      have hc : isWs c = false := dropWhile_head_false hu
      rw [hu] at ha
      -- `(c :: cs).reverse.dropWhile isWs` reversed is a prefix of `c :: cs`
      have hpre : ((c :: cs).reverse.dropWhile isWs).reverse <+: (c :: cs) := by
        have hsuf : (c :: cs).reverse.dropWhile isWs <:+ (c :: cs).reverse :=
          List.dropWhile_suffix isWs
        have := List.reverse_prefix.mpr hsuf
        rwa [List.reverse_reverse] at this
      rcases hpre with ⟨w, hw⟩
      match hres : ((c :: cs).reverse.dropWhile isWs).reverse with
      | [] => rw [hres] at ha; simp at ha
      | d :: ds =>
        rw [hres] at ha hw
        simp only [List.head?_cons, Option.some.injEq] at ha
        rw [List.cons_append] at hw
        have hd : d = c := ((List.cons.inj hw.symm).1).symm
        rw [← ha, hd]
        exact hc
  · intro a ha
    unfold stripWs dropTrailWs at ha
    rw [List.getLast?_reverse] at ha
    match hd : (dropLeadWs t).reverse.dropWhile isWs with
    | [] => rw [hd] at ha; simp at ha
    | c :: cs =>
      rw [hd] at ha
      simp only [List.head?_cons, Option.some.injEq] at ha
      rw [← ha]
      exact dropWhile_head_false hd

/-! ## Membership facts for the scan -/

theorem mem_subTags (allow : Bool) (x : Char) : ∀ l, x ∈ subTags allow l →
    x ∈ l ∨ x = '[' ∨ x = ']' ∨ ∃ tn ∈ allowedCues, x ∈ tn := by
  intro l
  induction l using listStrongInd with
  | _ l ih =>
    match l with
    | [] => intro h; rw [subTags_nil] at h; exact absurd h (List.not_mem_nil x)
    | c :: cs =>
      intro h
      by_cases hc : c = '['
      · subst hc
        rcases scan_decomp cs with hno | ⟨tag, rest, hdec, htag⟩
        · rw [subTags_no_rb allow cs hno] at h
          exact Or.inl h
        · subst hdec
          match tag with
          | [] =>
            rw [List.nil_append] at h ⊢
            rw [subTags_empty_tag] at h
            rcases List.mem_cons.mp h with h1 | h1
            · exact Or.inr (Or.inl h1)
            rcases List.mem_cons.mp h1 with h2 | h2
            · exact Or.inr (Or.inr (Or.inl h2))
            rcases ih rest (by simp only [List.length_cons, List.nil_append]; omega) h2 with
              h3 | h3
            · exact Or.inl (List.mem_cons_of_mem _ (List.mem_cons_of_mem _ h3))
            · exact Or.inr h3
          | t0 :: ts =>
            rw [subTags_match allow (t0 :: ts) rest htag (by simp)] at h
            rcases List.mem_append.mp h with h1 | h1
            · rcases keepOrDrop_cases allow (t0 :: ts) with hkd | ⟨_, hmem, hkd⟩
              · rw [hkd] at h1; exact absurd h1 (List.not_mem_nil x)
              · rw [hkd] at h1
                rcases List.mem_cons.mp h1 with h2 | h2
                · exact Or.inr (Or.inl h2)
                rcases List.mem_append.mp h2 with h3 | h3
                · exact Or.inr (Or.inr (Or.inr ⟨normTag (t0 :: ts), hmem, h3⟩))
                · have : x = ']' := List.mem_singleton.mp h3
                  exact Or.inr (Or.inr (Or.inl this))
            · have hlen : rest.length < ('[' :: ((t0 :: ts) ++ ']' :: rest)).length := by
                simp only [List.length_cons, List.length_append]
                omega
              rcases ih rest hlen h1 with h3 | h3
              · refine Or.inl (List.mem_cons_of_mem _ ?_)
                exact List.mem_append.mpr (Or.inr (List.mem_cons_of_mem _ h3))
              · exact Or.inr h3
      · rw [subTags_cons_ne allow c cs hc] at h
        rcases List.mem_cons.mp h with h1 | h1
        · exact Or.inl (h1 ▸ List.mem_cons_self c cs)
        · rcases ih cs (by simp [List.length_cons]) h1 with h2 | h2
          · exact Or.inl (List.mem_cons_of_mem c h2)
          · exact Or.inr h2

theorem mem_stripWs (x : Char) (t : List Char) (h : x ∈ stripWs t) : x ∈ t := by
  unfold stripWs dropTrailWs at h
  rw [List.mem_reverse] at h
  have h1 := (List.dropWhile_sublist isWs).mem h
  rw [List.mem_reverse] at h1
  exact (List.dropWhile_sublist isWs).mem h1

theorem bannedNotCue : ∀ tn ∈ allowedCues, '`' ∉ tn ∧ '*' ∉ tn ∧ '_' ∉ tn := by decide

/-! ## The sanitizer normal form -/

/-- Invariant characterising outputs of `sanitize_spoken_text`. -/
def SanitizedNormal (allow : Bool) (t : List Char) : Prop :=
  NoBanned t ∧ subTags allow t = t ∧ noWsRun t = true ∧ Stripped t

theorem noWsRun_append_right : ∀ u v : List Char, noWsRun (u ++ v) = true →
    noWsRun v = true := by
  intro u
  induction u with
  | nil => intro v h; exact h
  | cons a u' ih => intro v h; exact ih v (noWsRun_tail h)

theorem noWsRun_append_left : ∀ u v : List Char, noWsRun (u ++ v) = true →
    noWsRun u = true := by
  intro u
  induction u with
  | nil => intro v _; rfl
  | cons a u' ih =>
    intro v h
    match u' with
    | [] => rfl
    | b :: u'' =>
      have hrec : noWsRun (b :: u'') = true := ih v (noWsRun_tail h)
      simp only [List.cons_append, noWsRun, Bool.and_eq_true] at h ⊢
      exact ⟨h.1, hrec⟩

theorem noWsRun_stripWs {t : List Char} (h : noWsRun t = true) :
    noWsRun (stripWs t) = true := by
  have h1 : noWsRun (dropLeadWs t) = true := by
    have hdec : t.takeWhile isWs ++ dropLeadWs t = t :=
      List.takeWhile_append_dropWhile isWs t
    exact noWsRun_append_right _ _ (by rwa [hdec])
  have hdec2 : dropTrailWs (dropLeadWs t) ++ ((dropLeadWs t).reverse.takeWhile isWs).reverse
      = dropLeadWs t := by
    have hr : (dropLeadWs t).reverse =
        (dropLeadWs t).reverse.takeWhile isWs ++ (dropLeadWs t).reverse.dropWhile isWs :=
      (List.takeWhile_append_dropWhile isWs _).symm
    have := congrArg List.reverse hr
    rw [List.reverse_reverse, List.reverse_append] at this
    exact this.symm
  show noWsRun (dropTrailWs (dropLeadWs t)) = true
  exact noWsRun_append_left _ _ (by rwa [hdec2])

theorem sanitize_normal (allow : Bool) (t : List Char) :
    SanitizedNormal allow (sanitizeSpokenText allow t) := by
  by_cases ht : t = []
  · subst ht
    exact ⟨⟨List.not_mem_nil _, List.not_mem_nil _, List.not_mem_nil _⟩, rfl, rfl,
      fun a ha => by exact absurd ha (by simp [sanitizeSpokenText]),
      fun a ha => by exact absurd ha (by simp [sanitizeSpokenText])⟩
  · rw [sanitizeSpokenText_eq allow t ht]
    have hnb : NoBanned (replStage t) := replStage_noBanned t
    have hmem : ∀ x : Char, x ≠ '[' → x ≠ ']' → x ≠ ' ' →
        (∀ tn ∈ allowedCues, x ∉ tn) → x ∉ replStage t →
        x ∉ stripWs (collapseWs (subTags allow (replStage t))) := by
      intro x hlb hrb hsp hcue hnotin hin
      have h1 := mem_stripWs x _ hin
      rcases mem_collapseWs x _ h1 with h2 | h2
      · rcases mem_subTags allow x _ h2 with h3 | h3 | h3 | ⟨tn, htn, h3⟩
        · exact hnotin h3
        · exact hlb h3
        · exact hrb h3
        · exact hcue tn htn h3
      · exact hsp h2
    refine ⟨⟨?_, ?_, ?_⟩, ?_, ?_, ?_⟩
    · exact hmem '`' (by decide) (by decide) (by decide)
        (fun tn htn => (bannedNotCue tn htn).1) hnb.1
    · exact hmem '*' (by decide) (by decide) (by decide)
        (fun tn htn => (bannedNotCue tn htn).2.1) hnb.2.1
    · exact hmem '_' (by decide) (by decide) (by decide)
        (fun tn htn => (bannedNotCue tn htn).2.2) hnb.2.2
    · exact fixed_stripWs allow _ (collapse_fixed allow _ (subTags_idem allow (replStage t)))
    · exact noWsRun_stripWs (collapse_noWsRun _)
    · exact stripWs_stripped _

theorem sanitize_eq_self (allow : Bool) (t : List Char)
    (h : SanitizedNormal allow t) : sanitizeSpokenText allow t = t := by
  by_cases ht : t = []
  · subst ht; rfl
  · rw [sanitizeSpokenText_eq allow t ht, replStage_eq_self t h.1, h.2.1,
      collapse_eq_self t h.2.2.1, stripWs_eq_self h.2.2.2]

/-! ## Claims C7 and C8 -/

/-- C7: sanitization is idempotent.  For every input string `x` and both
modes (`allow_paralinguistic` `True` and `False`),
`sanitize_spoken_text(sanitize_spoken_text(x)) == sanitize_spoken_text(x)`
(`services/text.py`). -/
theorem claim_C7_sanitize_idempotent (allow : Bool) (x : List Char) :
    sanitizeSpokenText allow (sanitizeSpokenText allow x) = sanitizeSpokenText allow x :=
  sanitize_eq_self allow _ (sanitize_normal allow x)

/-- `t` contains a complete cue-tag substring `[a]` with `a` nonempty and
free of `]` — exactly a match of the regex `\[[^\]]+\]`. -/
def ContainsTag (t : List Char) : Prop :=
  ∃ u a v, t = u ++ ('[' :: a) ++ (']' :: v) ∧ a ≠ [] ∧ ']' ∉ a

theorem fixed_no_tag : ∀ t, subTags false t = t → ¬ ContainsTag t := by
  intro t
  induction t using listStrongInd with
  | _ t ih =>
    intro hfix hct
    obtain ⟨u, a, v, hdec, hane, hnrb⟩ := hct
    match t with
    | [] =>
      rw [List.append_assoc] at hdec
      have := congrArg List.length hdec
      simp [List.length_append] at this
      omega
    | c :: cs =>
      by_cases hc : c = '['
      · subst hc
        rcases scan_decomp cs with hno | ⟨tag, rest, hdec2, htag⟩
        · have hmem : (']' : Char) ∈ u ++ ('[' :: a) ++ (']' :: v) := by
            simp [List.mem_append]
          rw [← hdec] at hmem
          rcases List.mem_cons.mp hmem with h1 | h1
          · exact absurd h1 (by decide)
          · exact hno h1
        · subst hdec2
          match tag with
          | [] =>
            simp only [List.nil_append] at hdec hfix
            rw [subTags_empty_tag] at hfix
            have hrest : subTags false rest = rest :=
              (List.cons.inj (List.cons.inj hfix).2).2
            match u with
            | [] =>
              simp only [List.nil_append, List.append_assoc, List.cons_append] at hdec
              have h2 := (List.cons.inj hdec).2
              match a with
              | [] => exact hane rfl
              | b :: a' =>
                rw [List.cons_append] at h2
                have hb : ']' = b := (List.cons.inj h2).1
                exact hnrb (hb ▸ List.mem_cons_self b a')
            | x :: u' =>
              simp only [List.cons_append, List.append_assoc] at hdec
              have h2 := (List.cons.inj hdec).2
              match u' with
              | [] =>
                simp only [List.nil_append, List.cons_append] at h2
                exact absurd (List.cons.inj h2).1 (by decide)
              | y :: u'' =>
                rw [List.cons_append] at h2
                have h3 := (List.cons.inj h2).2
                refine ih rest ?_ hrest ⟨u'', a, v, ?_, hane, hnrb⟩
                · simp only [List.length_cons, List.nil_append]
                  omega
                · rw [h3]
                  simp [List.append_assoc]
          | t0 :: ts =>
            rw [subTags_match false (t0 :: ts) rest htag (by simp)] at hfix
            have hko : keepOrDrop false (t0 :: ts) = [] := rfl
            rw [hko, List.nil_append] at hfix
            have h1 := length_subTags_le false rest
            have h2 := congrArg List.length hfix
            simp only [List.length_cons, List.length_append] at h2
            omega
      · rw [subTags_cons_ne false c cs hc] at hfix
        have hcs : subTags false cs = cs := (List.cons.inj hfix).2
        match u with
        | [] =>
          simp only [List.nil_append, List.cons_append] at hdec
          exact hc (List.cons.inj hdec).1
        | x :: u' =>
          simp only [List.cons_append, List.append_assoc] at hdec
          have h2 := (List.cons.inj hdec).2
          refine ih cs (by simp [List.length_cons]) hcs ⟨u', a, v, ?_, hane, hnrb⟩
          rw [h2]
          simp [List.append_assoc]

/-- C8 counterexample: in cue-stripping mode the input `"]"` is returned
unchanged, so the output does contain a `]` character. -/
theorem claim_C8_counterexample :
    sanitizeSpokenText false [']'] = [']'] ∧ (']' : Char) ∈ sanitizeSpokenText false [']'] := by
  constructor
  · decide
  · decide

/-- C8 (amended): in cue-stripping mode the output never contains a
complete cue tag `[...]` (a nonempty bracket group without an inner `]`);
stray bracket characters that match no tag are preserved, so the output
can still contain `[` or `]`. -/
theorem claim_C8_cue_strip_no_tags (x : List Char) :
    ¬ ContainsTag (sanitizeSpokenText false x) :=
  fixed_no_tag _ (sanitize_normal false x).2.1

/-! ## Session persistence (`db/sessions.py`) -/

/-- One row of the `sessions` table (`db/models.py: Session`).  SQL `NULL`
is `none`; timestamps are modelled as rationals. -/
structure SessRow where
  started_at : Option ℚ
  ended_at : Option ℚ
  duration_sec : Option ℚ
  client_type : String
  user_id : Option String
  personality_id : Option String
deriving DecidableEq

/-- The `sessions` table, keyed by the primary key `id`. -/
def SessDb := String → Option SessRow

/-- Python truthiness of a nullable numeric column
(`NULL` and `0.0` are falsy). -/
def truthyNum : Option ℚ → Bool
  | none => false
  | some q => decide (q ≠ 0)

/-- `db/sessions.py: SessionsMixin.end_session`.  `now` stands for the
`time.time()` call.  The row is updated only when it exists, its
`started_at` is truthy and its `ended_at` is falsy. -/
def endSession (db : SessDb) (session_id : String) (now : ℚ) : SessDb :=
  match db session_id with
  | none => db
  | some row =>
    match row.started_at with
    | none => db
    | some s =>
      if s ≠ 0 ∧ ¬ truthyNum row.ended_at then
        fun id =>
          if id = session_id then
            some { row with ended_at := some now, duration_sec := some (now - s) }
          else db id
      else db

theorem endSession_already_ended (db : SessDb) (sid : String) (t : ℚ)
    {row : SessRow} (hrow : db sid = some row) (hend : truthyNum row.ended_at = true) :
    endSession db sid t = db := by
  match hs : row.started_at with
  | none => simp only [endSession, hrow, hs]
  | some s =>
    simp only [endSession, hrow, hs]
    rw [if_neg]
    intro ⟨_, h2⟩
    exact h2 hend

/-- C9: ending a session is idempotent — once `end_session` has run for a
session id, a second call leaves the persisted record (and the whole
table) unchanged; `ended_at` and `duration_sec` are never overwritten.
The hypothesis `t1 ≠ 0` reflects that `time.time()` is never zero (a zero
`ended_at` would be falsy in the Python truthiness test). -/
theorem claim_C9_end_session_idempotent (db : SessDb) (sid : String) (t1 t2 : ℚ)
    (h : t1 ≠ 0) :
    endSession (endSession db sid t1) sid t2 = endSession db sid t1 := by
  match hrow : db sid with
  | none =>
    have h1 : endSession db sid t1 = db := by simp only [endSession, hrow]
    rw [h1]
    simp only [endSession, hrow]
  | some row =>
    match hs : row.started_at with
    | none =>
      have h1 : endSession db sid t1 = db := by simp only [endSession, hrow, hs]
      rw [h1]
      simp only [endSession, hrow, hs]
    | some s =>
      by_cases hcond : s ≠ 0 ∧ ¬ truthyNum row.ended_at
      · have h1 : endSession db sid t1 = fun id =>
            if id = sid then
              some { row with ended_at := some t1, duration_sec := some (t1 - s) }
            else db id := by
          simp only [endSession, hrow, hs]
          rw [if_pos hcond]
        rw [h1]
        have h2 : (fun id =>
            if id = sid then
              some { row with ended_at := some t1, duration_sec := some (t1 - s) }
            else db id) sid =
            some { row with ended_at := some t1, duration_sec := some (t1 - s) } := by
          simp
        refine endSession_already_ended _ sid t2 h2 ?_
        simp [truthyNum, h]
      · have h1 : endSession db sid t1 = db := by
          simp only [endSession, hrow, hs]
          rw [if_neg hcond]
        rw [h1]
        simp only [endSession, hrow, hs]
        rw [if_neg hcond]

/-- A concrete one-row table: session `"s1"` started at time 5, not yet
ended. -/
def exSessDb : SessDb := fun id =>
  if id = "s1" then some ⟨some 5, none, none, "desktop", none, none⟩ else none

theorem claim_C9_witness :
    (1 : ℚ) ≠ 0 ∧
      endSession (endSession exSessDb "s1" 1) "s1" 2 = endSession exSessDb "s1" 1 :=
  ⟨by norm_num, claim_C9_end_session_idempotent exSessDb "s1" 1 2 (by norm_num)⟩

/-! ## Synthesis streaming and cancellation
(`services/pipeline.py: VoicePipeline.synthesize_speech`)

The producer thread `_tts_stream` checks `cancel_event` before enqueueing
each TTS chunk and finally enqueues `None`; the consumer loop dequeues,
stops at `None`, checks `cancel_event` again and only then yields the
chunk.  `chunks` is the lazy chunk sequence produced by `self.tts.generate`
(an external engine).  The shared `asyncio.Event` is modelled as a
monotone boolean signal `flag` over a global logical clock; `pt i` / `ct i`
are the times of the producer's/consumer's `i`-th check and `yt i` the
time the `i`-th yielded chunk is delivered. -/

/-- The `_tts_stream` producer loop: enqueues chunks until the flag is
observed, then enqueues the `None` sentinel. -/
def ttsStreamLoop {α : Type} (obsP : ℕ → Bool) : List α → ℕ → List (Option α)
  | [], _ => [none]
  | c :: cs, i => if obsP i then [none] else some c :: ttsStreamLoop obsP cs (i + 1)

/-- The consumer loop of `synthesize_speech`: dequeues until the sentinel
or an observed cancellation, yielding chunks. -/
def consumeLoop {α : Type} (obsC : ℕ → Bool) : List (Option α) → ℕ → List α
  | [], _ => []
  | none :: _, _ => []
  | some c :: rest, i => if obsC i then [] else c :: consumeLoop obsC rest (i + 1)

/-- The chunk sequence yielded to the caller of `synthesize_speech`. -/
def synthesizeSpeech {α : Type} (chunks : List α) (obsP obsC : ℕ → Bool) : List α :=
  consumeLoop obsC (ttsStreamLoop obsP chunks 0) 0

theorem consumeLoop_stop {α : Type} (obsC : ℕ → Bool) (q : List (Option α)) (i : ℕ)
    (h : obsC i = true) : consumeLoop obsC q i = [] := by
  match q with
  | [] => rfl
  | none :: _ => rfl
  | some c :: rest => simp only [consumeLoop, h, if_true]

theorem consumeLoop_checked {α : Type} (obsC : ℕ → Bool) :
    ∀ (q : List (Option α)) (i j : ℕ), j < (consumeLoop obsC q i).length →
      obsC (i + j) = false := by
  intro q
  induction q with
  | nil => intro i j h; simp [consumeLoop] at h
  | cons o rest ih =>
    intro i j h
    match o with
    | none => simp [consumeLoop] at h
    | some c =>
      by_cases ho : obsC i
      · rw [consumeLoop_stop obsC _ i ho] at h
        simp at h
      · simp only [consumeLoop] at h
        rw [if_neg ho] at h
        simp only [List.length_cons] at h
        match j with
        | 0 => simpa using Bool.eq_false_iff.mpr ho
        | j' + 1 =>
          have := ih (i + 1) j' (by omega)
          have harith : i + 1 + j' = i + (j' + 1) := by omega
          rwa [harith] at this

theorem ct_monotone (ct yt : ℕ → ℕ) (hinter : ∀ j, ct j < yt j ∧ yt j < ct (j + 1)) :
    ∀ a b, a ≤ b → ct a ≤ ct b := by
  intro a b hab
  induction b with
  | zero =>
    have : a = 0 := by omega
    subst this
    exact Nat.le_refl _
  | succ n ih =>
    rcases Nat.lt_succ_iff_lt_or_eq.mp (Nat.lt_succ_of_le hab) with h | h
    · have h1 := ih (by omega)
      have h2 := (hinter n).1
      have h3 := (hinter n).2
      omega
    · subst h
      exact Nat.le_refl _

/-- C3: cancellation chunk bound for `synthesize_speech`.
(a) If the token is set by the time of the consumer's first check (i.e.
before the stream starts), zero chunks are yielded.
(b) Every yielded chunk was preceded by a check that observed the token
unset (the loop stops within one chunk of observing it), and at most one
chunk can be delivered at-or-after any time at which the token is set. -/
theorem claim_C3_synthesis_cancellation {α : Type} (chunks : List α)
    (flag : ℕ → Bool) (pt ct yt : ℕ → ℕ)
    (hmono : ∀ s t, s ≤ t → flag s = true → flag t = true)
    (hinter : ∀ j, ct j < yt j ∧ yt j < ct (j + 1)) :
    (flag (ct 0) = true →
      synthesizeSpeech chunks (fun i => flag (pt i)) (fun i => flag (ct i)) = []) ∧
    (∀ j, j < (synthesizeSpeech chunks (fun i => flag (pt i))
        (fun i => flag (ct i))).length → flag (ct j) = false) ∧
    (∀ T, flag T = true →
      ∀ j1 j2,
        j1 < (synthesizeSpeech chunks (fun i => flag (pt i))
          (fun i => flag (ct i))).length →
        j2 < (synthesizeSpeech chunks (fun i => flag (pt i))
          (fun i => flag (ct i))).length →
        T ≤ yt j1 → T ≤ yt j2 → j1 = j2) := by
  refine ⟨?_, ?_, ?_⟩
  · intro h
    exact consumeLoop_stop _ _ 0 h
  · intro j hj
    have := consumeLoop_checked (fun i => flag (ct i)) _ 0 j hj
    simpa using this
  · intro T hT j1 j2 hj1 hj2 hy1 hy2
    by_contra hne
    -- without loss of generality j1 < j2
    rcases Nat.lt_or_ge j1 j2 with hlt | hge
    · have hchk := consumeLoop_checked (fun i => flag (ct i)) _ 0 j2 hj2
      simp only [Nat.zero_add] at hchk
      have hct : yt j1 < ct j2 := by
        have h1 := (hinter j1).2
        have h2 := ct_monotone ct yt hinter (j1 + 1) j2 (by omega)
        omega
      have : flag (ct j2) = true := hmono T (ct j2) (by omega) hT
      rw [hchk] at this
      exact Bool.noConfusion this
    · have hlt2 : j2 < j1 := by omega
      have hchk := consumeLoop_checked (fun i => flag (ct i)) _ 0 j1 hj1
      simp only [Nat.zero_add] at hchk
      have hct : yt j2 < ct j1 := by
        have h1 := (hinter j2).2
        have h2 := ct_monotone ct yt hinter (j2 + 1) j1 (by omega)
        omega
      have : flag (ct j1) = true := hmono T (ct j1) (by omega) hT
      rw [hchk] at this
      exact Bool.noConfusion this

theorem claim_C3_witness :
    ((fun _ : ℕ => true) 0 = true) ∧
      synthesizeSpeech [10, 20, 30] (fun _ : ℕ => true) (fun _ : ℕ => true) = [] := by
  refine ⟨rfl, ?_⟩
  have hin : ∀ j : ℕ, 2 * j < 2 * j + 1 ∧ 2 * j + 1 < 2 * (j + 1) :=
    fun j => ⟨by omega, by omega⟩
  have h := claim_C3_synthesis_cancellation [10, 20, 30] (fun _ => true)
    (fun i => 2 * i + 1) (fun i => 2 * i) (fun i => 2 * i + 1)
    (fun _ _ _ hh => hh) hin
  exact h.1 rfl

/-! ## User preferences (`services/voice_refs.py: get_user_preferences`)

`json.loads` is external standard-library code and is passed in as a
parameter `loads`; a raised `json.JSONDecodeError` is its `Except.error`
case.  Python's `str()` of numbers and containers is modelled up to
formatting (no claim depends on those renderings); `str()` of the values
actually stored by the backend (strings, `None`, booleans) is exact. -/

/-- A parsed JSON value. -/
inductive Json where
  | null
  | bool (b : Bool)
  | num (q : ℚ)
  | str (s : List Char)
  | arr (xs : List Json)
  | obj (kvs : List (List Char × Json))

/-- Python dict lookup on a parsed JSON object. -/
def jsonLookup (kvs : List (List Char × Json)) (k : List Char) : Option Json :=
  (kvs.find? (fun kv => kv.1 = k)).map (·.2)

/-- Python truthiness of a JSON value. -/
def pyTruthy : Json → Bool
  | .null => false
  | .bool b => b
  | .num q => decide (q ≠ 0)
  | .str s => s ≠ []
  | .arr xs => !xs.isEmpty
  | .obj kvs => !kvs.isEmpty

mutual

/-- Python `str()` of a JSON value (formatting of numbers and
containers approximated; unused by the claims). -/
def pyStr : Json → List Char
  | .null => "None".toList
  | .bool true => "True".toList
  | .bool false => "False".toList
  | .num q => (toString q).toList
  | .str s => s
  | .arr xs => '[' :: pyStrList xs ++ [']']
  | .obj kvs => Char.ofNat 123 :: pyStrKvs kvs ++ [Char.ofNat 125]

def pyStrList : List Json → List Char
  | [] => []
  | [x] => pyStr x
  | x :: y :: rest => pyStr x ++ ", ".toList ++ pyStrList (y :: rest)

def pyStrKvs : List (List Char × Json) → List Char
  | [] => []
  | [kv] => kv.1 ++ ": ".toList ++ pyStr kv.2
  | kv :: kv2 :: rest => kv.1 ++ ": ".toList ++ pyStr kv.2 ++ ", ".toList ++
      pyStrKvs (kv2 :: rest)

end

/-- One entry of the `profiles` preference list. -/
structure ProfileR where
  id : List Char
  name : List Char
  voice_id : Option (List Char)
  personality_id : Option (List Char)
deriving DecidableEq

/-- A value stored in the preferences dict returned by
`get_user_preferences`. -/
inductive PrefVal where
  | noneV
  | strV (s : List Char)
  | boolV (b : Bool)
  | listV (ps : List ProfileR)
deriving DecidableEq

/-- Python truthiness of a stored preference value. -/
def prefTruthy : PrefVal → Bool
  | .noneV => false
  | .strV s => s ≠ []
  | .boolV b => b
  | .listV ps => ps ≠ []

/-- The `out` dict initialised at the top of `get_user_preferences`:
all seven keys with their safe defaults. -/
def prefsDefault : List (List Char × PrefVal) :=
  [("default_voice_id".toList, .noneV),
   ("default_personality_id".toList, .noneV),
   ("default_profile_id".toList, .noneV),
   ("profiles".toList, .listV []),
   ("use_default_voice_everywhere".toList, .boolV true),
   ("allow_experience_voice_override".toList, .boolV false),
   ("assistant_language".toList, .noneV)]

/-- `out[k] = v` on the preferences dict. -/
def setKey (d : List (List Char × PrefVal)) (k : List Char) (v : PrefVal) :
    List (List Char × PrefVal) :=
  d.map (fun kv => if kv.1 = k then (k, v) else kv)

/-- `out.get(k)` / `out[k]` on the preferences dict. -/
def getKey (d : List (List Char × PrefVal)) (k : List Char) : Option PrefVal :=
  (d.find? (fun kv => kv.1 = k)).map (·.2)

/-- `if k in data and data[k]: out[k] = str(data[k]).strip()`. -/
def updStrKey (out : List (List Char × PrefVal)) (kvs : List (List Char × Json))
    (k : List Char) : List (List Char × PrefVal) :=
  match jsonLookup kvs k with
  | some v => if pyTruthy v then setKey out k (.strV (stripWs (pyStr v))) else out
  | none => out

/-- `if k in data: out[k] = bool(data[k])`. -/
def updBoolKey (out : List (List Char × PrefVal)) (kvs : List (List Char × Json))
    (k : List Char) : List (List Char × PrefVal) :=
  match jsonLookup kvs k with
  | some v => setKey out k (.boolV (pyTruthy v))
  | none => out

/-- The dict comprehension entry for one profile `p` in the `profiles`
list. -/
def mkProfile (pkvs : List (List Char × Json)) : ProfileR :=
  { id := stripWs (pyStr ((jsonLookup pkvs "id".toList).getD (Json.str []))),
    name := stripWs (pyStr ((jsonLookup pkvs "name".toList).getD (Json.str []))),
    voice_id :=
      match jsonLookup pkvs "voice_id".toList with
      | some v => if pyTruthy v then some (stripWs (pyStr v)) else none
      | none => none,
    personality_id :=
      match jsonLookup pkvs "personality_id".toList with
      | some v => if pyTruthy v then some (stripWs (pyStr v)) else none
      | none => none }

/-- `if "profiles" in data and isinstance(data["profiles"], list): ...`. -/
def updProfiles (out : List (List Char × PrefVal)) (kvs : List (List Char × Json)) :
    List (List Char × PrefVal) :=
  match jsonLookup kvs "profiles".toList with
  | some (.arr ps) =>
    setKey out "profiles".toList (.listV (ps.filterMap (fun p =>
      match p with
      | .obj pkvs =>
        if pyTruthy ((jsonLookup pkvs "id".toList).getD Json.null) ||
            pyTruthy ((jsonLookup pkvs "name".toList).getD Json.null) then
          some (mkProfile pkvs)
        else none
      | _ => none)))
  | _ => out

/-- `if "assistant_language" in data and data["assistant_language"]:
out["assistant_language"] = str(...).strip().lower()`. -/
def updLangKey (out : List (List Char × PrefVal)) (kvs : List (List Char × Json)) :
    List (List Char × PrefVal) :=
  match jsonLookup kvs "assistant_language".toList with
  | some v =>
    if pyTruthy v then
      setKey out "assistant_language".toList (.strV ((stripWs (pyStr v)).map lowerChar))
    else out
  | none => out

/-- `services/voice_refs.py: get_user_preferences(settings_json)`. -/
def getUserPreferences (loads : List Char → Except Unit Json)
    (settings_json : Option (List Char)) : List (List Char × PrefVal) :=
  match settings_json with
  | none => prefsDefault
  | some s =>
    if s = [] ∨ stripWs s = [] then prefsDefault
    else
      match loads s with
      | .error _ => prefsDefault
      | .ok data =>
        match data with
        | .obj kvs =>
          updLangKey
            (updBoolKey
              (updBoolKey
                (updProfiles
                  (updStrKey
                    (updStrKey
                      (updStrKey prefsDefault kvs "default_voice_id".toList)
                      kvs "default_personality_id".toList)
                    kvs "default_profile_id".toList)
                  kvs)
                kvs "use_default_voice_everywhere".toList)
              kvs "allow_experience_voice_override".toList)
            kvs
        | _ => prefsDefault

/-- The seven preference keys. -/
def sevenPrefKeys : List (List Char) :=
  ["default_voice_id".toList, "default_personality_id".toList,
   "default_profile_id".toList, "profiles".toList,
   "use_default_voice_everywhere".toList, "allow_experience_voice_override".toList,
   "assistant_language".toList]

theorem setKey_fst (d : List (List Char × PrefVal)) (k : List Char) (v : PrefVal) :
    (setKey d k v).map (·.1) = d.map (·.1) := by
  induction d with
  | nil => rfl
  | cons kv rest ih =>
    simp only [setKey, List.map_cons] at ih ⊢
    by_cases h : kv.1 = k
    · rw [if_pos h, ih]
      simp [h]
    · rw [if_neg h, ih]

set_option synthInstance.maxHeartbeats 400000 in
theorem getKey_isSome_iff (d : List (List Char × PrefVal)) (k : List Char) :
    (getKey d k).isSome = true ↔ k ∈ d.map (·.1) := by
  induction d with
  | nil => simp [getKey]
  | cons kv rest ih =>
    by_cases h : kv.1 = k
    · simp [getKey, List.find?_cons_of_pos, h]
    · rw [getKey, List.find?_cons_of_neg _ (by simpa using h)]
      simp only [List.map_cons, List.mem_cons]
      rw [← getKey, ih]
      constructor
      · exact Or.inr
      · rintro (h1 | h1)
        · exact absurd h1.symm h
        · exact h1

theorem updStrKey_fst (out : List (List Char × PrefVal)) (kvs : List (List Char × Json))
    (k : List Char) : (updStrKey out kvs k).map (·.1) = out.map (·.1) := by
  unfold updStrKey
  split
  · split
    · rw [setKey_fst]
    · rfl
  · rfl

theorem updBoolKey_fst (out : List (List Char × PrefVal)) (kvs : List (List Char × Json))
    (k : List Char) : (updBoolKey out kvs k).map (·.1) = out.map (·.1) := by
  unfold updBoolKey
  split
  · rw [setKey_fst]
  · rfl

theorem updProfiles_fst (out : List (List Char × PrefVal))
    (kvs : List (List Char × Json)) : (updProfiles out kvs).map (·.1) = out.map (·.1) := by
  unfold updProfiles
  split
  · rw [setKey_fst]
  · rfl

theorem updLangKey_fst (out : List (List Char × PrefVal))
    (kvs : List (List Char × Json)) : (updLangKey out kvs).map (·.1) = out.map (·.1) := by
  unfold updLangKey
  split
  · split
    · rw [setKey_fst]
    · rfl
  · rfl

/-- C10: preference parsing is total and never raises.  For every input
(`None`, empty, whitespace-only, malformed JSON, or JSON whose top level
is not an object) the result is a dict that contains all seven preference
keys; on every such degenerate input it is exactly the safe-defaults
dict.  `loads` ranges over all possible `json.loads` behaviours, so a
raising parse (its `Except.error` case) is covered. -/
theorem claim_C10_preferences_total (loads : List Char → Except Unit Json)
    (settings_json : Option (List Char)) :
    (∀ k ∈ sevenPrefKeys, (getKey (getUserPreferences loads settings_json) k).isSome) ∧
    ((settings_json = none ∨
        ∃ s, settings_json = some s ∧
          (stripWs s = [] ∨ loads s = .error () ∨
            ∀ kvs, loads s ≠ .ok (.obj kvs))) →
      getUserPreferences loads settings_json = prefsDefault) := by
  constructor
  · intro k hk
    have hkeys : (getUserPreferences loads settings_json).map (·.1) =
        prefsDefault.map (·.1) := by
      cases settings_json with
      | none => rfl
      | some s =>
        simp only [getUserPreferences]
        by_cases hs : s = [] ∨ stripWs s = []
        · rw [if_pos hs]
        · rw [if_neg hs]
          match hl : loads s with
          | .error _ => rfl
          | .ok data =>
            match data with
            | .obj kvs =>
              show (updLangKey
                  (updBoolKey
                    (updBoolKey
                      (updProfiles
                        (updStrKey
                          (updStrKey
                            (updStrKey prefsDefault kvs "default_voice_id".toList)
                            kvs "default_personality_id".toList)
                          kvs "default_profile_id".toList)
                        kvs)
                      kvs "use_default_voice_everywhere".toList)
                    kvs "allow_experience_voice_override".toList)
                  kvs).map (·.1) = prefsDefault.map (·.1)
              rw [updLangKey_fst, updBoolKey_fst, updBoolKey_fst, updProfiles_fst,
                updStrKey_fst, updStrKey_fst, updStrKey_fst]
            | .null => rfl
            | .bool _ => rfl
            | .num _ => rfl
            | .str _ => rfl
            | .arr _ => rfl
    rw [getKey_isSome_iff, hkeys]
    have : k ∈ prefsDefault.map (·.1) := by
      fin_cases hk <;> decide
    exact this
  · intro h
    cases settings_json with
    | none => rfl
    | some s =>
      rcases h with h | ⟨s2, hs2, hcase⟩
      · exact Option.noConfusion h
      · have hseq : s = s2 := Option.some.inj hs2
        subst hseq
        simp only [getUserPreferences]
        by_cases hempty : s = [] ∨ stripWs s = []
        · rw [if_pos hempty]
        · rw [if_neg hempty]
          rcases hcase with hstrip | herr | hnobj
          · exact absurd (Or.inr hstrip) hempty
          · rw [herr]
          · match hl : loads s with
            | .error _ => rfl
            | .ok data =>
              match data with
              | .obj kvs => exact absurd hl (hnobj kvs)
              | .null => rfl
              | .bool _ => rfl
              | .num _ => rfl
              | .str _ => rfl
              | .arr _ => rfl

theorem claim_C10_witness :
    (∃ s, (some ("not json".toList) : Option (List Char)) = some s ∧
      (stripWs s = [] ∨ (fun _ : List Char => (Except.error () : Except Unit Json)) s = .error () ∨
        ∀ kvs, (fun _ : List Char => (Except.error () : Except Unit Json)) s ≠ .ok (.obj kvs))) ∧
    getUserPreferences (fun _ => .error ()) (some ("not json".toList)) = prefsDefault := by
  refine ⟨⟨"not json".toList, rfl, Or.inr (Or.inl rfl)⟩, ?_⟩
  exact (claim_C10_preferences_total (fun _ => .error ()) (some ("not json".toList))).2
    (Or.inr ⟨"not json".toList, rfl, Or.inr (Or.inl rfl)⟩)

/-! ## Voice resolution (`services/voice_refs.py: resolve_voice_id`,
`server.py: _resolve_voice_id_for_session`) -/

/-- The user-row fields consulted by the session
(`db/models.py: User`). -/
structure UserR where
  current_voice_id : Option (List Char)
  settings_json : Option (List Char)

/-- The experience/personality fields consulted by the session
(`db/models.py: Experience`). -/
structure PersonalityR where
  pname : Option (List Char)
  prompt : Option (List Char)
  voice_id : Option (List Char)
  ptype : List Char

/-- Python truthiness of an optional string. -/
def truthyS : Option (List Char) → Bool
  | none => false
  | some s => s ≠ []

/-- Python `a or d` for an optional string `a` and a string default. -/
def pyOrS : Option (List Char) → List Char → List Char
  | some s, d => if s = [] then d else s
  | none, d => d

/-- `preferences.get("default_voice_id") or None` in `resolve_voice_id`
(the stored value is a string or `None`). -/
def dvOf (prefs : List (List Char × PrefVal)) : Option (List Char) :=
  match getKey prefs "default_voice_id".toList with
  | some (.strV s) => if s = [] then none else some s
  | _ => none

/-- `preferences.get("use_default_voice_everywhere", True)` (truthiness
applied where the code tests it). -/
def udeOf (prefs : List (List Char × PrefVal)) : Bool :=
  match getKey prefs "use_default_voice_everywhere".toList with
  | some v => prefTruthy v
  | none => true

/-- `preferences.get("allow_experience_voice_override", False)`. -/
def aeoOf (prefs : List (List Char × PrefVal)) : Bool :=
  match getKey prefs "allow_experience_voice_override".toList with
  | some v => prefTruthy v
  | none => false

/-- `services/voice_refs.py: resolve_voice_id(preferences,
experience_voice_id, fallback_voice_id)`. -/
def resolveVoiceId (prefs : List (List Char × PrefVal))
    (experience_voice_id fallback_voice_id : Option (List Char)) : List Char :=
  if truthyS (dvOf prefs) ∧ udeOf prefs then (dvOf prefs).getD []
  else if aeoOf prefs ∧ truthyS experience_voice_id then
    experience_voice_id.getD []
  else if truthyS (dvOf prefs) then (dvOf prefs).getD []
  else stripWs (pyOrS experience_voice_id (pyOrS fallback_voice_id "radio".toList))

/-- The `profiles` preference list, `prefs.get("profiles") or []`. -/
def prefProfiles (prefs : List (List Char × PrefVal)) : List ProfileR :=
  match getKey prefs "profiles".toList with
  | some (.listV ps) => ps
  | _ => []

/-- `prefs.get("default_profile_id") or None`. -/
def dpidOf (prefs : List (List Char × PrefVal)) : Option (List Char) :=
  match getKey prefs "default_profile_id".toList with
  | some (.strV s) => if s = [] then none else some s
  | _ => none

/-- The profile-scanning loop of `_resolve_voice_id_for_session`: the
first profile whose id matches and whose `voice_id` is truthy decides the
outcome (returning its voice when it exists in the voices table), and the
loop `break`s either way. -/
def findProfileVoice (voiceExists : List Char → Bool) (dpid : List Char) :
    List ProfileR → Option (List Char)
  | [] => none
  | pr :: rest =>
    if pr.id = dpid ∧ truthyS pr.voice_id then
      (if voiceExists (pr.voice_id.getD []) then some (pr.voice_id.getD []) else none)
    else findProfileVoice voiceExists dpid rest

/-- `if user and user.current_voice_id: if _voice_exists(...): return`. -/
def curOf (voiceExists : List Char → Bool) (user : Option UserR) : Option (List Char) :=
  match user with
  | some u =>
    match u.current_voice_id with
    | some cv => if cv ≠ [] ∧ voiceExists cv then some cv else none
    | none => none
  | none => none

/-- The profile branch of `_resolve_voice_id_for_session`. -/
def profileVoiceOf (voiceExists : List Char → Bool)
    (prefs : List (List Char × PrefVal)) : Option (List Char) :=
  match dpidOf prefs with
  | some pid => findProfileVoice voiceExists pid (prefProfiles prefs)
  | none => none

/-- `getattr(personality, "voice_id", None)`. -/
def expOf (personality : Option PersonalityR) : Option (List Char) :=
  match personality with
  | some p => p.voice_id
  | none => none

/-- `server.py: _resolve_voice_id_for_session(user, prefs, personality,
fallback_voice_id)`.  `voiceExists` stands for
`db_service._voice_exists` (a storage query). -/
def resolveVoiceIdForSession (voiceExists : List Char → Bool) (user : Option UserR)
    (prefs : List (List Char × PrefVal)) (personality : Option PersonalityR)
    (fallback_voice_id : Option (List Char)) : List Char :=
  match curOf voiceExists user with
  | some v => v
  | none =>
    match profileVoiceOf voiceExists prefs with
    | some v => v
    | none =>
      resolveVoiceId prefs (expOf personality)
        (some (pyOrS fallback_voice_id "radio".toList))

/-- The resolution chain exactly as the claim states it (spec wording):
explicit per-user override → active session voice → pack/profile default
→ personality's declared voice → global fallback → literal default id
`"radio"`, first present value winning. -/
def claimedVoiceResolution (override sessionVoice profileDefault personalityVoice
    globalFallback : Option (List Char)) : List Char :=
  (((((override).or sessionVoice).or profileDefault).or personalityVoice).or
    globalFallback).getD "radio".toList

def exPersonality : PersonalityR :=
  { pname := some "Bot".toList, prompt := none,
    voice_id := some "P".toList, ptype := "personality".toList }

/-- C6 counterexample.  A desktop session whose `config` message set the
session voice `"S"`, with no user signed in (so no override, no profile
default, no user default voice) and an active personality declaring voice
`"P"`: the claimed chain puts the active session voice before the
personality's voice and resolves `"S"`, but the code
(`_resolve_voice_id_for_session`, called at server.py:2192-2196 without
the `session_voice` variable) resolves `"P"` — the session voice is never
consulted. -/
theorem claim_C6_counterexample :
    resolveVoiceIdForSession (fun _ => false) none prefsDefault (some exPersonality) none
      = "P".toList ∧
    claimedVoiceResolution none (some "S".toList) none (some "P".toList) none
      = "S".toList ∧
    ("P".toList : List Char) ≠ "S".toList := by
  refine ⟨by decide, by decide, by decide⟩

/-- First truthy candidate of a priority list. -/
def firstSome : List (Option (List Char)) → Option (List Char)
  | [] => none
  | some v :: _ => some v
  | none :: rest => firstSome rest

/-- The per-synthesis-call resolution the code actually performs, written
as one flat priority chain: the session user's explicitly chosen voice
(`current_voice_id`, if that voice exists) → the default profile's voice
(if it exists; a matching profile with a missing voice falls through) →
the user's default voice when `use_default_voice_everywhere` → the
personality's voice when `allow_experience_voice_override` → the user's
default voice → the personality's voice → the global fallback → the
literal `"radio"`.  The desktop `config` session voice does not appear. -/
def actualVoiceChain (voiceExists : List Char → Bool) (user : Option UserR)
    (prefs : List (List Char × PrefVal)) (personality : Option PersonalityR)
    (fallback_voice_id : Option (List Char)) : List Char :=
  (firstSome [curOf voiceExists user, profileVoiceOf voiceExists prefs,
      if truthyS (dvOf prefs) ∧ udeOf prefs then dvOf prefs else none,
      if aeoOf prefs ∧ truthyS (expOf personality) then expOf personality else none,
      if truthyS (dvOf prefs) then dvOf prefs else none]).getD
    (stripWs (pyOrS (expOf personality) (pyOrS fallback_voice_id "radio".toList)))

theorem pyOrS_radio (fb : Option (List Char)) :
    pyOrS (some (pyOrS fb "radio".toList)) "radio".toList = pyOrS fb "radio".toList := by
  match fb with
  | none => rfl
  | some s =>
    by_cases h : s = []
    · subst h; rfl
    · simp [pyOrS, h]

theorem resolveVoiceId_chain (prefs : List (List Char × PrefVal))
    (expv fb : Option (List Char)) :
    resolveVoiceId prefs expv (some (pyOrS fb "radio".toList)) =
      (firstSome [
        if truthyS (dvOf prefs) ∧ udeOf prefs then dvOf prefs else none,
        if aeoOf prefs ∧ truthyS expv then expv else none,
        if truthyS (dvOf prefs) then dvOf prefs else none]).getD
      (stripWs (pyOrS expv (pyOrS fb "radio".toList))) := by
  unfold resolveVoiceId
  rw [pyOrS_radio]
  by_cases h1 : truthyS (dvOf prefs) ∧ udeOf prefs
  · rw [if_pos h1, if_pos h1]
    rcases hdv : dvOf prefs with _ | v
    · rw [hdv] at h1
      exact absurd h1.1 (by decide)
    · simp [firstSome]
  · rw [if_neg h1, if_neg h1]
    by_cases h2 : aeoOf prefs ∧ truthyS expv
    · rw [if_pos h2, if_pos h2]
      rcases hex : expv with _ | v
      · rw [hex] at h2
        exact absurd h2.2 (by decide)
      · simp [firstSome]
    · rw [if_neg h2, if_neg h2]
      by_cases h3 : truthyS (dvOf prefs)
      · rw [if_pos h3, if_pos h3]
        rcases hdv : dvOf prefs with _ | v
        · rw [hdv] at h3
          exact absurd h3 (by decide)
        · simp [firstSome]
      · rw [if_neg h3, if_neg h3]
        simp [firstSome]

/-- C6 (amended): on every synthesis call the voice id is resolved by the
flat priority chain of `actualVoiceChain` — current user voice, default
profile voice, user default voice (conditioned on the two preference
flags), personality voice, global fallback, `"radio"` — and never by the
desktop session's `config` voice. -/
theorem claim_C6_voice_resolution_order (voiceExists : List Char → Bool)
    (user : Option UserR) (prefs : List (List Char × PrefVal))
    (personality : Option PersonalityR) (fallback_voice_id : Option (List Char)) :
    resolveVoiceIdForSession voiceExists user prefs personality fallback_voice_id =
      actualVoiceChain voiceExists user prefs personality fallback_voice_id := by
  unfold resolveVoiceIdForSession actualVoiceChain
  rcases hcur : curOf voiceExists user with _ | v
  · rcases hpv : profileVoiceOf voiceExists prefs with _ | w
    · simp only [firstSome]
      exact resolveVoiceId_chain prefs (expOf personality) fallback_voice_id
    · simp [firstSome]
  · simp [firstSome]

/-! ## Audio segmentation on the embedded transport
(`websocket_unified`, server.py:2304-2357)

Frames are fixed-size 30 ms PCM frames; the VAD classifier
(`webrtcvad.Vad`) is an external model, so each frame event carries its
classification bit.  `SILENCE_FRAMES = int(1.5 / (30 / 1000)) = 50`.
The `INTERRUPT` instruction also sets the cancel token and clears the
byte buffer; those live in the connection loop (modelled with claim C5),
while the segmentation state is `speech_frames` / `is_speaking` /
`silence_count`. -/

def SILENCE_FRAMES : ℕ := 50

structure SegState (α : Type) where
  speech_frames : List α
  is_speaking : Bool
  silence_count : ℕ
deriving DecidableEq

inductive SegEvent (α : Type) where
  | frame (data : α) (isSpeech : Bool)
  | endOfSpeech
  | interrupt
deriving DecidableEq

/-- The per-frame VAD branch (server.py:2313-2337). -/
def stepFrame {α : Type} (st : SegState α) (data : α) (isSpeech : Bool) :
    SegState α × Option (List α) :=
  if isSpeech then
    ({ speech_frames := st.speech_frames ++ [data], is_speaking := true,
       silence_count := 0 }, none)
  else if st.is_speaking then
    let frames := st.speech_frames ++ [data]
    let cnt := st.silence_count + 1
    if cnt > SILENCE_FRAMES then
      ({ speech_frames := [], is_speaking := false, silence_count := 0 }, some frames)
    else
      ({ speech_frames := frames, is_speaking := st.is_speaking, silence_count := cnt },
        none)
  else (st, none)

/-- One segmenter event: a classified frame, the manual `end_of_speech`
instruction (server.py:2345-2353), or `INTERRUPT` (server.py:2354-2357,
which clears only the accumulation). -/
def stepEvent {α : Type} (st : SegState α) : SegEvent α → SegState α × Option (List α)
  | .frame d sp => stepFrame st d sp
  | .endOfSpeech =>
    if st.speech_frames.isEmpty then (st, none)
    else (⟨[], false, 0⟩, some st.speech_frames)
  | .interrupt => ({ st with speech_frames := [] }, none)

def runSeg {α : Type} (st : SegState α) : List (SegEvent α) → SegState α × List (List α)
  | [] => (st, [])
  | e :: es =>
    let s1 := stepEvent st e
    let s2 := runSeg s1.1 es
    (s2.1, (match s1.2 with | some u => [u] | none => []) ++ s2.2)

def initSeg {α : Type} : SegState α := ⟨[], false, 0⟩

/-- The utterances finalized while consuming an event sequence. -/
def segEmissions {α : Type} (evs : List (SegEvent α)) : List (List α) :=
  (runSeg initSeg evs).2

/-- The segmenter exactly as the claim states it: a finalized utterance
is emitted iff a run of consecutive non-speech frames exceeding the
silence threshold follows at least one speech frame *since the last
finalize or interrupt*; interrupt discards the accumulation and (per the
claim's "since the last finalize or interrupt") resets the
speech-seen/silence-run tracking; manual `end_of_speech` emits iff the
accumulation is nonempty. -/
structure SegSpecState (α : Type) where
  accum : List α
  speechSince : Bool
  silenceRun : ℕ
deriving DecidableEq

def specStep {α : Type} (st : SegSpecState α) :
    SegEvent α → SegSpecState α × Option (List α)
  | .frame d true =>
    ({ accum := st.accum ++ [d], speechSince := true, silenceRun := 0 }, none)
  | .frame d false =>
    if st.speechSince then
      if st.silenceRun + 1 > SILENCE_FRAMES then (⟨[], false, 0⟩, some (st.accum ++ [d]))
      else ({ st with accum := st.accum ++ [d], silenceRun := st.silenceRun + 1 }, none)
    else (st, none)
  | .endOfSpeech =>
    if st.accum.isEmpty then (st, none) else (⟨[], false, 0⟩, some st.accum)
  | .interrupt => (⟨[], false, 0⟩, none)

def runSegSpec {α : Type} (st : SegSpecState α) :
    List (SegEvent α) → SegSpecState α × List (List α)
  | [] => (st, [])
  | e :: es =>
    let s1 := specStep st e
    let s2 := runSegSpec s1.1 es
    (s2.1, (match s1.2 with | some u => [u] | none => []) ++ s2.2)

def segSpecEmissions {α : Type} (evs : List (SegEvent α)) : List (List α) :=
  (runSegSpec ⟨[], false, 0⟩ evs).2

/-- Speech frame, then 50 silence frames (one short of finalizing), then
`INTERRUPT`, then a single silence frame. -/
def exSegEvents : List (SegEvent ℕ) :=
  SegEvent.frame 0 true ::
    ((List.range 50).map (fun i => SegEvent.frame (i + 1) false) ++
      [SegEvent.interrupt, SegEvent.frame 51 false])

/-- C2 counterexample: after the interrupt no speech frame occurs, yet
the code finalizes an utterance (consisting of the single post-interrupt
silence frame), because `INTERRUPT` clears only `speech_frames` and
leaves `is_speaking`/`silence_count` intact; the claim's
"since the last finalize or interrupt" machine emits nothing. -/
theorem claim_C2_counterexample :
    segEmissions exSegEvents = [[51]] ∧
    segSpecEmissions exSegEvents = [] ∧
    ([[51]] : List (List ℕ)) ≠ [] := by
  refine ⟨by decide, by decide, by decide⟩

/-- The claim's machine with the interrupt behaviour the code actually
has: `INTERRUPT` discards the accumulation but does not reset the
speech-seen flag or the silence run. -/
def specStepA {α : Type} (st : SegSpecState α) :
    SegEvent α → SegSpecState α × Option (List α)
  | .frame d true =>
    ({ accum := st.accum ++ [d], speechSince := true, silenceRun := 0 }, none)
  | .frame d false =>
    if st.speechSince then
      if st.silenceRun + 1 > SILENCE_FRAMES then (⟨[], false, 0⟩, some (st.accum ++ [d]))
      else ({ st with accum := st.accum ++ [d], silenceRun := st.silenceRun + 1 }, none)
    else (st, none)
  | .endOfSpeech =>
    if st.accum.isEmpty then (st, none) else (⟨[], false, 0⟩, some st.accum)
  | .interrupt => ({ st with accum := [] }, none)

def runSegSpecA {α : Type} (st : SegSpecState α) :
    List (SegEvent α) → SegSpecState α × List (List α)
  | [] => (st, [])
  | e :: es =>
    let s1 := specStepA st e
    let s2 := runSegSpecA s1.1 es
    (s2.1, (match s1.2 with | some u => [u] | none => []) ++ s2.2)

/-- The field-wise correspondence between the code's segment state and
the spec-style state. -/
def toSpec {α : Type} (st : SegState α) : SegSpecState α :=
  ⟨st.speech_frames, st.is_speaking, st.silence_count⟩

theorem stepEvent_toSpec {α : Type} (st : SegState α) (e : SegEvent α) :
    (stepEvent st e).2 = (specStepA (toSpec st) e).2 ∧
    toSpec (stepEvent st e).1 = (specStepA (toSpec st) e).1 := by
  match e with
  | .frame d sp =>
    match sp with
    | true => exact ⟨rfl, rfl⟩
    | false =>
      simp only [stepEvent, specStepA, stepFrame, toSpec]
      rw [if_neg (by simp)]
      by_cases hsp : st.is_speaking
      · rw [if_pos hsp, if_pos hsp]
        by_cases hcnt : st.silence_count + 1 > SILENCE_FRAMES
        · rw [if_pos hcnt, if_pos hcnt]
          exact ⟨rfl, rfl⟩
        · rw [if_neg hcnt, if_neg hcnt]
          exact ⟨rfl, rfl⟩
      · rw [if_neg hsp, if_neg hsp]
        exact ⟨rfl, rfl⟩
  | .endOfSpeech =>
    simp only [stepEvent, specStepA, toSpec]
    by_cases hne : st.speech_frames.isEmpty
    · rw [if_pos hne, if_pos hne]
      exact ⟨rfl, rfl⟩
    · rw [if_neg hne, if_neg hne]
      exact ⟨rfl, rfl⟩
  | .interrupt => exact ⟨rfl, rfl⟩

theorem runSeg_toSpec {α : Type} :
    ∀ (evs : List (SegEvent α)) (st : SegState α),
      (runSeg st evs).2 = (runSegSpecA (toSpec st) evs).2 := by
  intro evs
  induction evs with
  | nil => intro st; rfl
  | cons e es ih =>
    intro st
    obtain ⟨hem, hst⟩ := stepEvent_toSpec st e
    simp only [runSeg, runSegSpecA]
    rw [hem, ← hst, ih]

/-- C2 (amended): the code's finalization behaviour coincides, on every
event sequence, with the claim's machine amended so that `INTERRUPT`
discards the accumulation without resetting the speech-seen flag or the
silence run — i.e. an utterance is auto-finalized iff a >1.5 s run of
consecutive non-speech frames follows at least one speech frame since the
last *finalize* (interrupts do not restart that tracking), and manual
`end_of_speech` emits iff at least one frame is accumulated. -/
theorem claim_C2_segmenter_finalization {α : Type} (evs : List (SegEvent α)) :
    segEmissions evs = (runSegSpecA ⟨[], false, 0⟩ evs).2 :=
  runSeg_toSpec evs initSeg

/-! ## Turn pipeline (`server.py: process_transcription_and_respond`,
`engine/characters.py: build_llm_messages`, `server.py: _strip_thinking`,
`server.py: _build_llm_context`) -/

/-- Case-insensitive index of the first occurrence of `pat`
(both literals are lowercase ASCII words; models `re` `IGNORECASE`). -/
def findIdxCI (pat : List Char) : List Char → Option ℕ
  | [] => none
  | c :: cs =>
    if (pat.map lowerChar) <+: ((c :: cs).map lowerChar) then some 0
    else (findIdxCI pat cs).map (· + 1)

/-- Fueled core of `re.sub(r"<think>.*?</think>", "", text, DOTALL|IGNORECASE)`:
remove each leftmost non-greedy think block. -/
def removeThinkBlocksF : ℕ → List Char → List Char
  | 0, s => s
  | fuel + 1, s =>
    match findIdxCI "<think>".toList s with
    | none => s
    | some i =>
      match findIdxCI "</think>".toList (s.drop (i + 7)) with
      | none => s
      | some j => s.take i ++ removeThinkBlocksF fuel (s.drop (i + 7 + j + 8))

def removeThinkBlocks (s : List Char) : List Char := removeThinkBlocksF s.length s

/-- Fueled core of `re.sub(r"</?think>", "", cleaned, IGNORECASE)`. -/
def removeThinkTagsF : ℕ → List Char → List Char
  | 0, s => s
  | _ + 1, [] => []
  | fuel + 1, c :: cs =>
    if ("</think>".toList.map lowerChar) <+: ((c :: cs).map lowerChar) then
      removeThinkTagsF fuel ((c :: cs).drop 8)
    else if ("<think>".toList.map lowerChar) <+: ((c :: cs).map lowerChar) then
      removeThinkTagsF fuel ((c :: cs).drop 7)
    else c :: removeThinkTagsF fuel cs

def removeThinkTags (s : List Char) : List Char := removeThinkTagsF s.length s

/-- `server.py: _strip_thinking(text)`. -/
def stripThinking (t : List Char) : List Char :=
  if t.isEmpty then t
  else stripWs (removeThinkTags (removeThinkBlocks t))

/-- One `conversations` row as read back for context building
(`db/conversations.py`: rows are returned ordered by timestamp, which the
append-ordered list models). -/
structure Conv where
  role : List Char
  transcript : List Char
deriving DecidableEq

/-- One role-tagged LLM message. -/
structure Msg where
  role : List Char
  content : List Char
deriving DecidableEq

/-- `engine/characters.py: build_llm_messages`.  Python's `history[-n:]`
slice returns the whole list when `n = 0`. -/
def buildLlmMessages (system_prompt : List Char) (history : List Msg)
    (user_text : List Char) (max_history_messages : ℕ) : List Msg :=
  let trimmed :=
    if history.isEmpty then []
    else if max_history_messages = 0 then history
    else history.drop (history.length - max_history_messages)
  Msg.mk "system".toList system_prompt ::
    (trimmed.filterMap (fun m =>
      let content := stripWs m.content
      if m.role.isEmpty then none
      else if content.isEmpty then none
      else if m.role ≠ "user".toList ∧ m.role ≠ "assistant".toList then none
      else some ⟨m.role, content⟩) ++
     [⟨"user".toList, user_text⟩])

/-- The history loop of `_build_llm_context` (server.py:1929-1934):
`role == "user"` maps to a user message, `role == "ai"` to an assistant
message, other roles are dropped. -/
def historyMsgs : List Conv → List Msg
  | [] => []
  | c :: cs =>
    if c.role = "user".toList then ⟨"user".toList, c.transcript⟩ :: historyMsgs cs
    else if c.role = "ai".toList then ⟨"assistant".toList, c.transcript⟩ :: historyMsgs cs
    else historyMsgs cs

/-- `server.py: _build_llm_context(user_text)` reading the conversation
log `log`.  `sysPrompt` stands for the `build_system_prompt` output
(persona text, behavioural constraints and wall-clock runtime facts —
none of which read the conversation log). -/
def buildLlmContext (log : List Conv) (sysPrompt : List Char) (user_text : List Char) :
    List Msg :=
  buildLlmMessages sysPrompt (historyMsgs log) user_text 30

theorem historyMsgs_mem {m : Msg} : ∀ log : List Conv, m ∈ historyMsgs log →
    ∃ c ∈ log, (c.role = "user".toList ∧ m = ⟨"user".toList, c.transcript⟩) ∨
      (c.role = "ai".toList ∧ m = ⟨"assistant".toList, c.transcript⟩) := by
  intro log
  induction log with
  | nil => intro h; simp [historyMsgs] at h
  | cons c cs ih =>
    intro h
    by_cases hu : c.role = "user".toList
    · rw [historyMsgs, if_pos hu] at h
      rcases List.mem_cons.mp h with h1 | h1
      · exact ⟨c, List.mem_cons_self c cs, Or.inl ⟨hu, h1⟩⟩
      · obtain ⟨c', hc', hdisj⟩ := ih h1
        exact ⟨c', List.mem_cons_of_mem c hc', hdisj⟩
    · by_cases ha : c.role = "ai".toList
      · rw [historyMsgs, if_neg hu, if_pos ha] at h
        rcases List.mem_cons.mp h with h1 | h1
        · exact ⟨c, List.mem_cons_self c cs, Or.inr ⟨ha, h1⟩⟩
        · obtain ⟨c', hc', hdisj⟩ := ih h1
          exact ⟨c', List.mem_cons_of_mem c hc', hdisj⟩
      · rw [historyMsgs, if_neg hu, if_neg ha] at h
        obtain ⟨c', hc', hdisj⟩ := ih h
        exact ⟨c', List.mem_cons_of_mem c hc', hdisj⟩

/-- The history portion of a built context is the part strictly between
the system message and the final user message. -/
theorem buildLlmContext_history_portion (log : List Conv) (sysPrompt user_text : List Char) :
    ((buildLlmContext log sysPrompt user_text).drop 1).dropLast =
      (let trimmed :=
        if (historyMsgs log).isEmpty then []
        else (historyMsgs log).drop ((historyMsgs log).length - 30)
       trimmed.filterMap (fun m =>
        let content := stripWs m.content
        if m.role.isEmpty then none
        else if content.isEmpty then none
        else if m.role ≠ "user".toList ∧ m.role ≠ "assistant".toList then none
        else some ⟨m.role, content⟩)) := by
  unfold buildLlmContext buildLlmMessages
  simp only [List.drop_one, List.tail_cons]
  rw [List.dropLast_concat]
  rw [if_neg (by decide : ¬(30 = 0))]

theorem buildLlmContext_history_mem (log : List Conv) (sysPrompt user_text : List Char)
    (m : Msg) (hm : m ∈ ((buildLlmContext log sysPrompt user_text).drop 1).dropLast) :
    ∃ c ∈ log,
      (c.role = "user".toList ∧ m = ⟨"user".toList, stripWs c.transcript⟩) ∨
      (c.role = "ai".toList ∧ m = ⟨"assistant".toList, stripWs c.transcript⟩) := by
  rw [buildLlmContext_history_portion] at hm
  simp only at hm
  rw [List.mem_filterMap] at hm
  obtain ⟨m', hm', hf⟩ := hm
  have hm'' : m' ∈ historyMsgs log := by
    by_cases he : (historyMsgs log).isEmpty
    · rw [if_pos he] at hm'
      exact absurd hm' (List.not_mem_nil m')
    · rw [if_neg he] at hm'
      exact (List.drop_subset _ _) hm'
  obtain ⟨c, hc, hdisj⟩ := historyMsgs_mem log hm''
  refine ⟨c, hc, ?_⟩
  rcases hdisj with ⟨hrole, hmsg⟩ | ⟨hrole, hmsg⟩
  · left
    refine ⟨hrole, ?_⟩
    subst hmsg
    simp only at hf
    split at hf
    · exact absurd hf (by simp)
    · split at hf
      · exact absurd hf (by simp)
      · split at hf
        · exact absurd hf (by simp)
        · exact (Option.some.inj hf).symm
  · right
    refine ⟨hrole, ?_⟩
    subst hmsg
    simp only at hf
    split at hf
    · exact absurd hf (by simp)
    · split at hf
      · exact absurd hf (by simp)
      · split at hf
        · exact absurd hf (by simp)
        · exact (Option.some.inj hf).symm

/-- Transport effects emitted by one turn
(`process_transcription_and_respond`). -/
inductive TEff where
  | audioCommitted
  | transcriptionMsg (t : List Char)
  | responseCreated
  | responseMsg (t : List Char)
  | audioB64 (c : List ℕ)
  | audioEnd
  | opusPacket (p : List ℕ)
  | responseComplete
deriving DecidableEq

/-- `PREBUFFER_BYTES = int(24000 * (300 / 1000.0) * 2)`. -/
def PREBUFFER_BYTES : ℕ := 14400

/-- The desktop synthesis-streaming loop (server.py:2237-2291): prebuffer
the first `PREBUFFER_BYTES` bytes, then send chunk-per-message; stop on
an observed cancellation or a closed socket; flush the remainder and send
`audio_end`.  `cancelAt i` is the token value observed at the `i`-th
chunk. -/
def deskStream (cancelAt : ℕ → Bool) (wsOpen : Bool) :
    List (List ℕ) → ℕ → List ℕ → Bool → List TEff
  | [], _, buffered, _ =>
    (if buffered.isEmpty then [] else [.audioB64 buffered]) ++ [.audioEnd]
  | c :: cs, i, buffered, started =>
    if cancelAt i ∨ wsOpen = false then
      (if buffered.isEmpty then [] else [.audioB64 buffered]) ++ [.audioEnd]
    else if started = false then
      let buf := buffered ++ c
      if buf.length < PREBUFFER_BYTES then deskStream cancelAt wsOpen cs (i + 1) buf false
      else .audioB64 buf :: deskStream cancelAt wsOpen cs (i + 1) [] true
    else .audioB64 c :: deskStream cancelAt wsOpen cs (i + 1) buffered true

/-- The chunks the esp32 branch pushes into the Opus packetizer before a
cancellation or socket closure stops the loop (server.py:2204-2226). -/
def takeUntilCancel (cancelAt : ℕ → Bool) (wsOpen : Bool) :
    List (List ℕ) → ℕ → List (List ℕ)
  | [], _ => []
  | c :: cs, i =>
    if cancelAt i ∨ wsOpen = false then []
    else c :: takeUntilCancel cancelAt wsOpen cs (i + 1)

/-- The thinking-strip + sanitize post-processing of the raw LLM output
(server.py:2145-2150). -/
def fullResponseOf (thinking : Bool) (ttsBackend : Option (List Char))
    (raw : List Char) : List Char :=
  sanitizeSpokenText (pyOrS ttsBackend "chatterbox".toList = "chatterbox".toList)
    (if thinking then stripThinking raw else raw)

/-- The outcome of one `process_transcription_and_respond` call. -/
structure TurnResult where
  effects : List TEff
  log : List Conv
  ctxMsgs : Option (List Msg)
  voiceUsed : Option (List Char)
deriving DecidableEq

/-- `server.py: process_transcription_and_respond(transcription, for_esp32)`.

External collaborators appear as parameters: `genResult` is the LLM
generation outcome (`Except.error` = a raised exception), `loads` backs
`get_user_preferences`, `voiceExists`/`fallbackVoice`/`user`/`personality`
are the storage reads, `synthChunks` the chunk stream of
`pipeline.synthesize_speech` (analysed separately in `synthesizeSpeech`),
`cancelDuringGen` whether the just-cleared cancel token was re-set
concurrently before the post-generation guard, `cancelAtChunk` its value
at each streamed chunk, `boost` the loudness transform
(`utils.boost_limit_pcm16le_in_place`) and `opusPackets` the Opus
packetizer (external codec), mapping the pushed chunks to the packets it
emits (including the final flush).  Storage writes are modelled on the
append-ordered conversation log; logging failures, being caught and
ignored by the code, are not modelled as a separate failure mode. -/
def processTranscription (forEsp32 : Bool) (log : List Conv)
    (transcription : List Char) (sysPrompt : List Char) (thinking : Bool)
    (ttsBackend : Option (List Char)) (genResult : Except Unit (List Char))
    (cancelDuringGen : Bool) (wsOpen : Bool)
    (loads : List Char → Except Unit Json) (user : Option UserR)
    (voiceExists : List Char → Bool) (personality : Option PersonalityR)
    (fallbackVoice : Option (List Char)) (synthChunks : List (List ℕ))
    (cancelAtChunk : ℕ → Bool) (boost : List ℕ → List ℕ)
    (opusPackets : List (List ℕ) → List (List ℕ)) : TurnResult :=
  if transcription.isEmpty ∨ (stripWs transcription).isEmpty then
    ⟨[], log, none, none⟩
  else
    let ack : List TEff :=
      if forEsp32 then [.audioCommitted] else [.transcriptionMsg transcription]
    -- cancel_event.clear(); context is built BEFORE the user row is logged
    let llm_messages := buildLlmContext log sysPrompt transcription
    let log1 := log ++ [⟨"user".toList, transcription⟩]
    match genResult with
    | .error _ => ⟨ack, log1, some llm_messages, none⟩
    | .ok raw =>
      let full := fullResponseOf thinking ttsBackend raw
      if cancelDuringGen then ⟨ack, log1, some llm_messages, none⟩
      else if wsOpen = false then ⟨ack, log1, some llm_messages, none⟩
      else if full.isEmpty ∨ (stripWs full).isEmpty then ⟨ack, log1, some llm_messages, none⟩
      else
        let notify : TEff := if forEsp32 then .responseCreated else .responseMsg full
        let log2 := log1 ++ [⟨"ai".toList, full⟩]
        let prefs := getUserPreferences loads
          (match user with | some u => u.settings_json | none => none)
        let resolved := resolveVoiceIdForSession voiceExists user prefs personality
          fallbackVoice
        let audioEffs :=
          if forEsp32 then
            ((opusPackets ((takeUntilCancel cancelAtChunk wsOpen synthChunks 0).map
              boost)).map TEff.opusPacket) ++ [.responseComplete]
          else deskStream cancelAtChunk wsOpen synthChunks 0 [] false
        ⟨ack ++ notify :: audioEffs, log2, some llm_messages, some resolved⟩

/-- C4: turn-log ordering.  For every prior log (turns 1..k) and every
nonempty transcription of turn k+1, the LLM context is computed from the
prior log alone (the history read happens strictly before the new user
row is written), every message in its history portion comes from a prior
log entry, and the turn's own user/assistant rows are only appended
afterwards. -/
theorem claim_C4_turn_log_ordering (forEsp32 : Bool) (log : List Conv)
    (transcription sysPrompt : List Char) (thinking : Bool)
    (ttsBackend : Option (List Char)) (genResult : Except Unit (List Char))
    (cancelDuringGen wsOpen : Bool) (loads : List Char → Except Unit Json)
    (user : Option UserR) (voiceExists : List Char → Bool)
    (personality : Option PersonalityR) (fallbackVoice : Option (List Char))
    (synthChunks : List (List ℕ)) (cancelAtChunk : ℕ → Bool)
    (boost : List ℕ → List ℕ) (opusPackets : List (List ℕ) → List (List ℕ))
    (h : ¬(transcription.isEmpty ∨ (stripWs transcription).isEmpty)) :
    (processTranscription forEsp32 log transcription sysPrompt thinking ttsBackend
        genResult cancelDuringGen wsOpen loads user voiceExists personality
        fallbackVoice synthChunks cancelAtChunk boost opusPackets).ctxMsgs =
      some (buildLlmContext log sysPrompt transcription) ∧
    (∀ m ∈ ((buildLlmContext log sysPrompt transcription).drop 1).dropLast,
      ∃ c ∈ log,
        (c.role = "user".toList ∧ m = ⟨"user".toList, stripWs c.transcript⟩) ∨
        (c.role = "ai".toList ∧ m = ⟨"assistant".toList, stripWs c.transcript⟩)) ∧
    ((processTranscription forEsp32 log transcription sysPrompt thinking ttsBackend
        genResult cancelDuringGen wsOpen loads user voiceExists personality
        fallbackVoice synthChunks cancelAtChunk boost opusPackets).log =
        log ++ [⟨"user".toList, transcription⟩] ∨
      ∃ resp,
        (processTranscription forEsp32 log transcription sysPrompt thinking ttsBackend
          genResult cancelDuringGen wsOpen loads user voiceExists personality
          fallbackVoice synthChunks cancelAtChunk boost opusPackets).log =
          log ++ [⟨"user".toList, transcription⟩, ⟨"ai".toList, resp⟩]) := by
  refine ⟨?_, ?_, ?_⟩
  · unfold processTranscription
    rw [if_neg h]
    match genResult with
    | .error _ => rfl
    | .ok raw =>
      simp only
      repeat' split
      all_goals rfl
  · intro m hm
    exact buildLlmContext_history_mem log sysPrompt transcription m hm
  · unfold processTranscription
    rw [if_neg h]
    match genResult with
    | .error _ => left; rfl
    | .ok raw =>
      simp only
      repeat' split
      all_goals first
        | (left; rfl)
        | (right; exact ⟨fullResponseOf thinking ttsBackend raw, by simp⟩)

theorem claim_C4_witness :
    ¬(("hi".toList : List Char).isEmpty ∨ (stripWs "hi".toList).isEmpty) ∧
      (processTranscription false [⟨"user".toList, "a".toList⟩]
          "hi".toList "sys".toList false none (.error ()) false true
          (fun _ => .error ()) none (fun _ => false) none none [] (fun _ => false)
          id id).ctxMsgs =
        some (buildLlmContext [⟨"user".toList, "a".toList⟩] "sys".toList "hi".toList) := by
  refine ⟨by decide, ?_⟩
  exact (claim_C4_turn_log_ordering false [⟨"user".toList, "a".toList⟩]
    "hi".toList "sys".toList false none (.error ()) false true
    (fun _ => .error ()) none (fun _ => false) none none [] (fun _ => false)
    id id (by decide)).1

/-! ## The desktop message loop (server.py:2361-2412)

Per-connection state of the unified websocket handler on the desktop
transport.  `taskActive` models `current_tts_task and not
current_tts_task.done()`; the payloads are the base64-decoded audio
bytes.  The handlers are atomic with respect to the loop: the coroutine
processes one message to completion (including the `await
current_tts_task` settlement) before receiving the next. -/

structure DeskState where
  audioBuffer : List ℕ
  taskActive : Bool
  cancelSet : Bool
  sessionVoice : Option (List Char)
  sessionSystemPrompt : Option (List Char)
deriving DecidableEq

/-- Observable actions of the desktop message handlers, in program
order. -/
inductive LoopEff where
  | extendBuffer (payload : List ℕ)
  | setCancel
  | awaitTask
  | clearCancel
  | clearBuffer
  | transcribeCall (audio : List ℕ)
  | spawnResponseTask (t : List Char)
  | configUpdate
deriving DecidableEq

/-- Client→server desktop messages (JSON text frames). -/
inductive DeskMsg where
  | audio (payload : List ℕ)
  | endOfSpeech
  | cancel
  | config (voice : Option (List Char)) (sysPrompt : Option (List Char))

/-- One iteration of the desktop branch of the message loop.
`transcribe` is the STT engine (`pipeline.transcribe`); an exception it
raises is caught by the handler's enclosing `except` (so the session
continues), which also means `audio_buffer.clear()` is skipped. -/
def handleDesktopMsg (transcribe : List ℕ → Except Unit (List Char))
    (st : DeskState) : DeskMsg → DeskState × List LoopEff
  | .config v sp =>
    ({ st with sessionVoice := some (v.getD "dave".toList), sessionSystemPrompt := sp },
      [.configUpdate])
  | .audio p =>
    let st1 := { st with audioBuffer := st.audioBuffer ++ p }
    if st.taskActive then
      ({ st1 with cancelSet := false, taskActive := false },
        [.extendBuffer p, .setCancel, .awaitTask, .clearCancel])
    else (st1, [.extendBuffer p])
  | .endOfSpeech =>
    if st.audioBuffer.isEmpty then (st, [])
    else
      match transcribe st.audioBuffer with
      | .error _ => (st, [.transcribeCall st.audioBuffer])
      | .ok t =>
        let st1 := { st with audioBuffer := [] }
        if t.isEmpty ∨ (stripWs t).isEmpty then (st1, [.transcribeCall st.audioBuffer])
        else ({ st1 with taskActive := true },
          [.transcribeCall st.audioBuffer, .spawnResponseTask t])
  | .cancel =>
    if st.taskActive then
      ({ st with cancelSet := true, audioBuffer := [] }, [.setCancel, .clearBuffer])
    else ({ st with audioBuffer := [] }, [.clearBuffer])

/-- The barge-in handling order the claim states: set the token, await
settlement, clear the token, and only then buffer the payload. -/
def claimedBargeInTrace (payload : List ℕ) : List LoopEff :=
  [.setCancel, .awaitTask, .clearCancel, .extendBuffer payload]

def exDeskState : DeskState :=
  { audioBuffer := [], taskActive := true, cancelSet := false,
    sessionVoice := none, sessionSystemPrompt := none }

/-- C1 counterexample: when an `audio` message arrives while the previous
turn's synthesis task is still active, the handler extends the input
buffer FIRST (server.py:2377) and only then sets the token, awaits the
task and clears the token (server.py:2380-2387) — the reverse of the
claimed order. -/
theorem claim_C1_counterexample :
    (handleDesktopMsg (fun _ => .error ()) exDeskState (.audio [1, 2])).2 =
      [.extendBuffer [1, 2], .setCancel, .awaitTask, .clearCancel] ∧
    (handleDesktopMsg (fun _ => .error ()) exDeskState (.audio [1, 2])).2 ≠
      claimedBargeInTrace [1, 2] := by
  refine ⟨by decide, by decide⟩

/-- C1 (amended): on a barge-in `audio` message the handler buffers the
new payload first, then sets the cancellation token, awaits the previous
task's settlement and clears the token — all before returning to the
message loop.  So only the triggering chunk is buffered before the prior
turn settles; the settlement (with the token cleared and no task active)
completes before any subsequent message is processed. -/
theorem claim_C1_barge_in_ordering (transcribe : List ℕ → Except Unit (List Char))
    (st : DeskState) (p : List ℕ) (h : st.taskActive = true) :
    handleDesktopMsg transcribe st (.audio p) =
      ({ st with
          audioBuffer := st.audioBuffer ++ p
          taskActive := false
          cancelSet := false },
        [.extendBuffer p, .setCancel, .awaitTask, .clearCancel]) := by
  simp only [handleDesktopMsg]
  rw [if_pos h]

theorem claim_C1_witness :
    exDeskState.taskActive = true ∧
      handleDesktopMsg (fun _ => .error ()) exDeskState (.audio [7]) =
        ({ exDeskState with
            audioBuffer := [7]
            taskActive := false
            cancelSet := false },
          [.extendBuffer [7], .setCancel, .awaitTask, .clearCancel]) :=
  ⟨rfl, claim_C1_barge_in_ordering (fun _ => .error ()) exDeskState [7] rfl⟩

/-! ## Inference errors and session survival (claim C5)

The embedded binary branch (server.py:2304-2337) calls
`pipeline.transcribe` at a VAD finalization with no enclosing `try`, so
an exception there escapes the message loop (landing in the outer
`except`/`finally` of `websocket_unified`) and the session is torn down.
The desktop `end_of_speech` transcription and both transports'
generation are wrapped, so those turns abort and the session continues. -/

inductive SessionOutcome where
  | listening
  | closed
deriving DecidableEq

/-- The embedded per-frame step: feed one classified frame to the
segmenter and, on a finalized utterance, call `pipeline.transcribe`
(uncaught — an `Except.error` propagates and the loop converts it to a
closed session). -/
def esp32FrameStep {α : Type} (transcribe : List α → Except Unit (List Char))
    (st : SegState α) (d : α) (sp : Bool) :
    Except Unit (SegState α × Option (List Char)) :=
  let s := stepFrame st d sp
  match s.2 with
  | none => .ok (s.1, none)
  | some u =>
    match transcribe u with
    | .error e => .error e
    | .ok t => .ok (s.1, some t)

/-- What the embedded message loop does with the frame-step result. -/
def esp32FrameOutcome {α : Type} (transcribe : List α → Except Unit (List Char))
    (st : SegState α) (d : α) (sp : Bool) : SessionOutcome :=
  match esp32FrameStep transcribe st d sp with
  | .error _ => .closed
  | .ok _ => .listening

/-- A reachable segmenter state: speaking, 50 consecutive silence frames
counted, one frame short of finalizing. -/
def exSegState : SegState ℕ := ⟨List.range 51, true, 50⟩

/-- C5 counterexample: on the embedded transport, a transcription
exception at a VAD finalization closes the session instead of returning
it to listening. -/
theorem claim_C5_counterexample :
    esp32FrameOutcome (fun _ => .error ()) exSegState 99 false = .closed ∧
    SessionOutcome.closed ≠ SessionOutcome.listening := by
  refine ⟨by decide, by decide⟩

/-- Effects that reach the client as a response or audio. -/
def isOutputEff : TEff → Bool
  | .responseCreated => true
  | .responseMsg _ => true
  | .audioB64 _ => true
  | .audioEnd => true
  | .opusPacket _ => true
  | .responseComplete => true
  | .audioCommitted => false
  | .transcriptionMsg _ => false

/-- C5 (amended): inference-error atomicity.
(a) A generation exception is always caught: the turn aborts with no
assistant row persisted, no response notification and no audio, and the
handler returns (the session keeps listening).
(b) A desktop transcription exception is caught by the message-loop
handler: state is unchanged (the audio buffer is even retained), no
response task is spawned, and the session continues.
(c) An embedded transcription exception at a VAD finalization is NOT
caught: it escapes the loop and the session closes. -/
theorem claim_C5_inference_error_atomicity
    (forEsp32 : Bool) (log : List Conv) (transcription sysPrompt : List Char)
    (thinking : Bool) (ttsBackend : Option (List Char))
    (cancelDuringGen wsOpen : Bool) (loads : List Char → Except Unit Json)
    (user : Option UserR) (voiceExists : List Char → Bool)
    (personality : Option PersonalityR) (fallbackVoice : Option (List Char))
    (synthChunks : List (List ℕ)) (cancelAtChunk : ℕ → Bool)
    (boost : List ℕ → List ℕ) (opusPackets : List (List ℕ) → List (List ℕ))
    (transcribe : List ℕ → Except Unit (List Char)) (dst : DeskState)
    (seg : SegState ℕ) (d : ℕ) (sp : Bool) :
    ((processTranscription forEsp32 log transcription sysPrompt thinking ttsBackend
        (.error ()) cancelDuringGen wsOpen loads user voiceExists personality
        fallbackVoice synthChunks cancelAtChunk boost opusPackets).log.filter
        (fun c => c.role = "ai".toList) = log.filter (fun c => c.role = "ai".toList) ∧
      ∀ e ∈ (processTranscription forEsp32 log transcription sysPrompt thinking
        ttsBackend (.error ()) cancelDuringGen wsOpen loads user voiceExists
        personality fallbackVoice synthChunks cancelAtChunk boost
        opusPackets).effects, isOutputEff e = false) ∧
    (transcribe dst.audioBuffer = .error () →
      handleDesktopMsg transcribe dst .endOfSpeech =
        (dst, if dst.audioBuffer.isEmpty then [] else [.transcribeCall dst.audioBuffer])) ∧
    (∀ u, (stepFrame seg d sp).2 = some u → transcribe u = .error () →
      esp32FrameOutcome transcribe seg d sp = .closed) := by
  refine ⟨⟨?_, ?_⟩, ?_, ?_⟩
  · unfold processTranscription
    by_cases hte : transcription.isEmpty ∨ (stripWs transcription).isEmpty
    · rw [if_pos hte]
    · rw [if_neg hte]
      simp only [List.filter_append]
      have h1 : List.filter (fun c => c.role = "ai".toList)
          [(⟨"user".toList, transcription⟩ : Conv)] = [] := rfl
      rw [h1, List.append_nil]
  · intro e he
    unfold processTranscription at he
    by_cases hte : transcription.isEmpty ∨ (stripWs transcription).isEmpty
    · rw [if_pos hte] at he
      exact absurd he (List.not_mem_nil e)
    · rw [if_neg hte] at he
      simp only at he
      by_cases hfe : forEsp32 = true
      · rw [if_pos hfe] at he
        rcases List.mem_singleton.mp he with h1
        rw [h1]
        rfl
      · rw [if_neg hfe] at he
        rcases List.mem_singleton.mp he with h1
        rw [h1]
        rfl
  · intro htr
    unfold handleDesktopMsg
    by_cases hbuf : dst.audioBuffer.isEmpty
    · rw [if_pos hbuf, if_pos hbuf]
    · rw [if_neg hbuf, if_neg hbuf, htr]
  · intro u hu htr
    unfold esp32FrameOutcome esp32FrameStep
    simp only [hu, htr]

theorem claim_C5_witness :
    ((fun _ : List ℕ => (Except.error () : Except Unit (List Char)))
        ((List.range 51 : List ℕ) ++ [99]) = .error ()) ∧
      esp32FrameOutcome (fun _ => (Except.error () : Except Unit (List Char)))
        exSegState 99 false = .closed := by
  refine ⟨rfl, ?_⟩
  have h := claim_C5_inference_error_atomicity false [] "hi".toList "s".toList false
    none false true (fun _ => .error ()) none (fun _ => false) none none []
    (fun _ => false) id id (fun _ => .error ()) exDeskState exSegState 99 false
  exact h.2.2 ((List.range 51 : List ℕ) ++ [99]) (by decide) rfl

end PIXM8
